import Mathlib

/-!
# Verification of the couch-migrate batch migration engine

Shallow embedding of `src/index.js` (the couchdb view-migration utility).

Modelling conventions:
* Document keys, fetched documents, document changes and error values are all
  modelled as `Nat` payloads; only their identity matters to the engine.
* The node-style `(err, result)` callback convention (and the `wrapAsync`
  wrapper, which turns a synchronous callback that returns or throws into that
  convention) is modelled by the result type `Res α` (`ok`/`er`).
* Every interaction with the store and every user callback invocation is
  recorded in an event trace, together with the response it received; the
  progress-bar `tick(success)` calls and per-row `reportFailure` calls are
  recorded as `tick`/`fail` events.  Console rendering itself is I/O and is
  not modelled beyond these events.
* The store client (nano) is an external collaborator: its responses are
  oracle functions in `Config`, indexed by the number of calls made so far,
  so a response may differ from one call to the next.
* JavaScript value subtleties that the code depends on are modelled
  explicitly: `Array.prototype.slice` with a `NaN`/negative bound, the
  `.length` property of a non-array object being `undefined`, out-of-bounds
  indexing giving `undefined` (`Option`), and `x || default` treating `0` as
  falsy.
-/

namespace CouchMigrate

abbrev Err := Nat
abbrev Doc := Nat
abbrev Chg := Nat
abbrev Key := Nat

/-- Node-style callback outcome: `cb(err)` or `cb(null, result)`. -/
inductive Res (α : Type) where
  | ok (a : α)
  | er (e : Err)
deriving DecidableEq

/-- A view row: couchdb key (assumed `Nat`-valued), optional document id and
an opaque value payload. -/
structure VRow where
  key : Nat
  id : Option Nat
  val : Nat
deriving DecidableEq

/-- A row after `getExtraKeyInfo` has attached `row.extraKeys`
(`keys.extraKeys = _.flatten([keysByRow[i] || []])` in the source). -/
structure ERow where
  row : VRow
  extraKeys : List Key
deriving DecidableEq

/-- Shape of a `fetchKeys` callback result: `key | [keys] | none`. -/
inductive KeysRet where
  | noneK
  | oneK (k : Key)
  | manyK (l : List Key)
deriving DecidableEq

/-- `_.flatten([keysByRow[i] || []])`: a single key is wrapped, a list kept,
`undefined` becomes `[]`. -/
def normKeys : KeysRet → List Key
  | .noneK => []
  | .oneK k => [k]
  | .manyK l => l

/-- Shape of a `changes` callback result: `change | [changes] | none`. -/
inductive ChgRet where
  | noneC
  | oneC (c : Chg)
  | manyC (l : List Chg)
deriving DecidableEq

/-- A JS value stored in the `changes` array after `changes.map(c => c || [])`:
either an array of changes, or a bare (non-array) change object. -/
inductive JsChs where
  | single (c : Chg)
  | arr (l : List Chg)
deriving DecidableEq

/-- `c || []`: `undefined` becomes `[]`, a bare change object or an array is
kept as-is. -/
def normChg : ChgRet → JsChs
  | .noneC => .arr []
  | .oneC c => .single c
  | .manyC l => .arr l

/-- The JS property access `_.map(changes, 'length')`: an array has a numeric
`.length`, a bare change object has none (`undefined`). -/
def jsLen : JsChs → Option Nat
  | .single _ => none
  | .arr l => some l.length

/-- One level of `_.flatten(changes)`: a bare element contributes itself,
an array element contributes its items. -/
def flat1 : JsChs → List Chg
  | .single c => [c]
  | .arr l => l

/-- A per-document bulk-write outcome: `ok`, an `error: 'conflict'` entry, or
some other error category. -/
inductive WriteRes where
  | ok
  | conflict
  | otherErr
deriving DecidableEq

/-- `_.find(group, {error: 'conflict'})` is truthy exactly on a conflict
entry. -/
def isConflict : WriteRes → Bool
  | .conflict => true
  | _ => false

/-- The mutable query-params object of `getViewInBatches` (its `limit` field
is passed separately, since it is constant `batchSize + 1`). -/
structure QP where
  startkey : Option Nat
  startkey_docid : Option Nat
deriving DecidableEq

/-- Trace events: every store call and callback invocation with the response
it received, plus progress ticks and per-row failure reports.  `page` is used
only when the scanner is driven by a page-recording consumer. -/
inductive Event where
  | viewQ (qp : QP) (lim : Nat) (resp : Res (List VRow))
  | page (rows : List VRow)
  | fetchKeysCall (row : VRow) (resp : Res KeysRet)
  | fetch (keys : List Key) (resp : Res (List (Option Doc)))
  | changesCall (row : VRow) (docs : Option (List (Option Doc))) (resp : Res ChgRet)
  | bulk (docs : List Chg) (resp : Res (List WriteRes))
  | tick (n : Nat)
  | fail (row : VRow)
deriving DecidableEq

/-- Engine state threaded through the run: the event trace, the cumulative
`progressTokens.realcurrent` success counter, per-oracle call counters, and
the remaining row budget (`limit`, mutated by the page handler). -/
structure St where
  events : List Event
  realcurrent : Nat
  viewCount : Nat
  fetchCount : Nat
  bulkCount : Nat
  limit : Option Int
deriving DecidableEq

/-- The configuration surface plus the store-response oracles. -/
structure Config where
  /-- page size of `getViewInBatches` (the source calls it with `1000`). -/
  pageSize : Nat
  /-- `options.batchSize || 20`; the `|| 20` default makes it at least 1. -/
  batchSize : Nat
  /-- `options.limit` (`none` = not configured). -/
  limit : Option Int
  /-- the computed `retries` ceiling
  (`options.retryConflicts === false ? 0 : options.retryConflicts || 2`). -/
  retries : Int
  sourceFilter : Option (VRow → Res Bool)
  fetchKeys : Option (VRow → Res KeysRet)
  changes : VRow → Option (List (Option Doc)) → Res ChgRet
  /-- `db.view` response for the n-th view query. -/
  viewResp : Nat → QP → Nat → Res (List VRow)
  /-- `db.fetch` response for the n-th multi-get (already projected through
  `_.map(body.rows, 'doc')`; a missing document is `none`). -/
  fetchResp : Nat → List Key → Res (List (Option Doc))
  /-- `db.bulk` response for the n-th bulk write. -/
  bulkResp : Nat → List Chg → Res (List WriteRes)

/--
`unflatten(array, counts)` from the source, with JS numeric semantics:

    var i = 0;
    return counts.map(function(c) {
      var slice = array.slice(i, i + c);
      i += c;
      return slice;
    });

A count of `undefined` (`none`, the `.length` of a bare change object) makes
`i + c` equal `NaN`, so that group is `slice(i, NaN) = []` and `i` becomes
`NaN` (`none`) for good: every later group is `slice(NaN, NaN) = []`.
-/
def unflatten (arr : List α) : List (Option Nat) → Option Nat → List (List α)
  | [], _ => []
  | _ :: cs, none => [] :: unflatten arr cs none
  | some n :: cs, some i => (arr.drop i).take n :: unflatten arr cs (some (i + n))
  | none :: cs, some _ => [] :: unflatten arr cs none

/-- The `async.timesSeries(batch.length, ...)` loop inside `runChanges`:
invoke `changesFn(batch[i], extraDocs[i], cb)` sequentially, stopping at the
first error; results are then normalized by `changes.map(c => c || [])`.
The loop only appends to the event trace, so it threads the trace alone. -/
def runChangesGo (cfg : Config) (extraDocs : List (List (Option Doc))) :
    List ERow → Nat → List Event → List Event × Res (List JsChs)
  | [], _, ev => (ev, .ok [])
  | r :: rs, i, ev =>
    match cfg.changes r.row extraDocs[i]? with
    | .er e => (ev ++ [.changesCall r.row extraDocs[i]? (.er e)], .er e)
    | .ok cr =>
      match runChangesGo cfg extraDocs rs (i + 1)
          (ev ++ [.changesCall r.row extraDocs[i]? (.ok cr)]) with
      | (ev1, .er e) => (ev1, .er e)
      | (ev1, .ok rest) => (ev1, .ok (normChg cr :: rest))

/--
One attempt of `processBatch` for a sub-batch: the multi-get enrichment
phase (skipped when no row has extra keys), `runChanges` (change generation,
flatten, one bulk write), and the first half of `processErrors` (regroup
results, compute the conflicted `newBatch`, tick the success count).
Returns the conflicted rows to be handled by the retry logic.  The input
state is destructured up front and result states are rebuilt as literals.
-/
def attemptOnce (cfg : Config) (batch : List ERow) (st : St) : St × Res (List ERow) :=
  match st with
  | ⟨ev0, rc0, vc0, fc0, bc0, lim0⟩ =>
    let extraKeys := batch.map (·.extraKeys)
    let allExtraKeys := extraKeys.flatten
    let fetched : List Event × Nat × Res (List (List (Option Doc))) :=
      if allExtraKeys.isEmpty then (ev0, fc0, .ok [])
      else
        match cfg.fetchResp fc0 allExtraKeys with
        | .er e => (ev0 ++ [.fetch allExtraKeys (.er e)], fc0 + 1, .er e)
        | .ok docs =>
          (ev0 ++ [.fetch allExtraKeys (.ok docs)], fc0 + 1,
            .ok (unflatten docs (extraKeys.map (fun l => some l.length)) (some 0)))
    match fetched with
    | (ev1, fc1, .er e) => (⟨ev1, rc0, vc0, fc1, bc0, lim0⟩, .er e)
    | (ev1, fc1, .ok extraDocs) =>
      match runChangesGo cfg extraDocs batch 0 ev1 with
      | (ev2, .er e) => (⟨ev2, rc0, vc0, fc1, bc0, lim0⟩, .er e)
      | (ev2, .ok jsChs) =>
        let counts := jsChs.map jsLen
        let allChanges := (jsChs.map flat1).flatten
        match cfg.bulkResp bc0 allChanges with
        | .er e =>
          (⟨ev2 ++ [.bulk allChanges (.er e)], rc0, vc0, fc1, bc0 + 1, lim0⟩, .er e)
        | .ok results =>
          let groups := unflatten results counts (some 0)
          let newBatch := ((batch.zip groups).filter (fun p => p.2.any isConflict)).map (·.1)
          let success := batch.length - newBatch.length
          (⟨ev2 ++ [.bulk allChanges (.ok results), .tick success],
            rc0 + success, vc0, fc1, bc0 + 1, lim0⟩, .ok newBatch)

/--
The retry loop of `processBatch`/`processErrors`: one attempt, then either
resolve the sub-batch (empty retry set, or ceiling reached: report each
surviving row as a permanent failure) or recurse on the conflicted subset
with `retry + 1`.  The extra fuel argument makes the recursion structural;
`processBatch` supplies `(retries - retry).toNat`, which is exact: the
recursive arm is taken only when `retry < retries`, so at fuel 0 the
recursion position (which returns `(st1, none)`) is never reached from
`processBatch`.  The two arms differ only in that recursion position.
-/
def processBatchAux (cfg : Config) : Nat → List ERow → Nat → St → St × Option Err
  | 0, batch, retry, st =>
    match attemptOnce cfg batch st with
    | (st1, .er e) => (st1, some e)
    | (st1, .ok newBatch) =>
      if newBatch.isEmpty then (st1, none)
      else if (retry : Int) ≥ cfg.retries then
        match st1 with
        | ⟨ev, rc, vc, fc, bc, lim⟩ =>
          (⟨ev ++ newBatch.map (fun r => .fail r.row), rc, vc, fc, bc, lim⟩, none)
      else (st1, none)
  | b + 1, batch, retry, st =>
    match attemptOnce cfg batch st with
    | (st1, .er e) => (st1, some e)
    | (st1, .ok newBatch) =>
      if newBatch.isEmpty then (st1, none)
      else if (retry : Int) ≥ cfg.retries then
        match st1 with
        | ⟨ev, rc, vc, fc, bc, lim⟩ =>
          (⟨ev ++ newBatch.map (fun r => .fail r.row), rc, vc, fc, bc, lim⟩, none)
      else processBatchAux cfg b newBatch (retry + 1) st1

/-- `processBatch(batch, retry, cb)` from the source. -/
def processBatch (cfg : Config) (batch : List ERow) (retry : Nat) (st : St) :
    St × Option Err :=
  processBatchAux cfg (cfg.retries - (retry : Int)).toNat batch retry st

/-- The `async.mapSeries(batch, fetchKeysFn, ...)` loop: sequential, aborts
at the first error; threads the event trace alone. -/
def fetchKeysGo (fk : VRow → Res KeysRet) : List VRow → List Event → List Event × Res (List KeysRet)
  | [], ev => (ev, .ok [])
  | r :: rs, ev =>
    match fk r with
    | .er e => (ev ++ [.fetchKeysCall r (.er e)], .er e)
    | .ok kr =>
      match fetchKeysGo fk rs (ev ++ [.fetchKeysCall r (.ok kr)]) with
      | (ev1, .er e) => (ev1, .er e)
      | (ev1, .ok ks) => (ev1, .ok (kr :: ks))

/-- `getExtraKeyInfo(batch, cb)`: ask `fetchKeys` for every row (the default
callback `function(key, cb) {cb();}` returns `undefined`), attach the
normalized keys to the rows, then start `processBatch` at retry 0. -/
def getExtraKeyInfo (cfg : Config) (batch : List VRow) (st : St) : St × Option Err :=
  let fk := match cfg.fetchKeys with
    | some f => f
    | none => fun _ => .ok .noneK
  match st with
  | ⟨ev0, rc0, vc0, fc0, bc0, lim0⟩ =>
    match fetchKeysGo fk batch ev0 with
    | (ev1, .er e) => (⟨ev1, rc0, vc0, fc0, bc0, lim0⟩, some e)
    | (ev1, .ok keysByRow) =>
      let erows := batch.zipWith (fun r kr => ⟨r, normKeys kr⟩) keysByRow
      processBatch cfg erows 0 ⟨ev1, rc0, vc0, fc0, bc0, lim0⟩

/-- Fuel-driven chunking; fuel `l.length` is always enough because each step
consumes at least one element. -/
def chunksGo (b : Nat) : Nat → List α → List (List α)
  | _, [] => []
  | 0, _ => []
  | f + 1, l => l.take (b + 1) :: chunksGo b f (l.drop (b + 1))

/-- The `async.whilst` slicing loop `rows.slice(count, count + batchSize)`:
split `l` into consecutive chunks of size `b + 1` (the page handler passes
`batchSize - 1`, so chunks have size `batchSize`; `batchSize ≥ 1` by the
`|| 20` default). -/
def chunksOf (b : Nat) (l : List α) : List (List α) :=
  chunksGo b l.length l

/-- Drive the sub-batches of one page sequentially; an error aborts the
rest. -/
def processBatches (cfg : Config) : List (List VRow) → St → St × Option Err
  | [], st => (st, none)
  | b :: bs, st =>
    match getExtraKeyInfo cfg b st with
    | (st1, some e) => (st1, some e)
    | (st1, none) => processBatches cfg bs st1

/-- The `rows.filter` wrapper around `options.sourceFilter`: a row whose
filter call throws is reported (`reportFailure`) and excluded; threads the
event trace alone. -/
def filterStep (f : VRow → Res Bool) : List VRow → List Event → List VRow × List Event
  | [], ev => ([], ev)
  | r :: rs, ev =>
    match f r with
    | .ok true =>
      match filterStep f rs ev with
      | (ks, ev1) => (r :: ks, ev1)
    | .ok false => filterStep f rs ev
    | .er _ => filterStep f rs (ev ++ [.fail r])

/-- A row the filter keeps: `sourceFilter(row)` returned truthy. -/
def keepRow (f : VRow → Res Bool) (r : VRow) : Bool :=
  match f r with
  | .ok true => true
  | _ => false

/-- A row whose filter call threw. -/
def filterThrew (f : VRow → Res Bool) (r : VRow) : Bool :=
  match f r with
  | .er _ => true
  | _ => false

/-- JS `arr.slice(0, e)`: a negative `e` counts from the end. -/
def jsSlice0 (l : List α) (e : Int) : List α :=
  if e < 0 then l.take (l.length + e).toNat else l.take e.toNat

/--
The page handler after the `sourceFilter` step (source lines 51-76): budget
(`limit`) bookkeeping with truncation, the empty-page shortcut
(`return nextBatch()`), the sub-batch `async.whilst` loop, and the
`limit === 0 ? complete : nextBatch` choice of final callback.  The returned
`Bool` is `true` when the scanner should fetch the next page.
-/
def pageRest (cfg : Config) (rows0 : List VRow) (st : St) : St × Bool × Option Err :=
  match st with
  | ⟨ev0, rc0, vc0, fc0, bc0, lim0⟩ =>
    let trimmed : List VRow × Option Int :=
      match lim0 with
      | none => (rows0, none)
      | some lim =>
        let lim1 := lim - rows0.length
        if lim1 < 0 then (jsSlice0 rows0 ((rows0.length : Int) + lim1), some 0)
        else (rows0, some lim1)
    match trimmed with
    | (rows, lim2) =>
      if rows.isEmpty then (⟨ev0, rc0, vc0, fc0, bc0, lim2⟩, true, none)
      else
        let stopAfter : Bool := lim2 = some 0
        match processBatches cfg (chunksOf (cfg.batchSize - 1) rows)
            ⟨ev0, rc0, vc0, fc0, bc0, lim2⟩ with
        | (st2, some e) => (st2, false, some e)
        | (st2, none) => (st2, !stopAfter, none)

/-- The batch handler passed to `getViewInBatches` (source lines 37-76):
optional `sourceFilter`, then `pageRest`. -/
def handlePage (cfg : Config) (pageRows : List VRow) (st : St) : St × Bool × Option Err :=
  match cfg.sourceFilter with
  | none => pageRest cfg pageRows st
  | some f =>
    match st with
    | ⟨ev0, rc0, vc0, fc0, bc0, lim0⟩ =>
      match filterStep f pageRows ev0 with
      | (kept, ev1) => pageRest cfg kept ⟨ev1, rc0, vc0, fc0, bc0, lim0⟩

/-- The suffix of the view selected by `startkey` (couchdb keyset semantics:
rows with key ≥ startkey; on a strictly key-sorted view `dropWhile` is
exactly that, and `startkey_docid` is a tie-breaker that never fires). -/
def dbViewRaw (view : List VRow) (qp : QP) : List VRow :=
  match qp.startkey with
  | none => view
  | some k => view.dropWhile (fun r => r.key < k)

/-- A correct store's view query: the cursor suffix, limited. -/
def dbView (view : List VRow) (qp : QP) (lim : Nat) : List VRow :=
  (dbViewRaw view qp).take lim

/--
`getViewInBatches(db, ddoc, view, params, batchSize, batchHandler, cb)`:
request `pageSize + 1` rows, hand `rows.slice(0, pageSize)` to the handler,
use row `pageSize` as lookahead cursor (`params.startkey = next.key`, and
`params.startkey_docid = next.id` only when `next.id` is truthy, so a stale
docid persists otherwise).  `fuel` bounds the recursion; `none` means the
fuel ran out before the scan finished.
-/
def getViewInBatches (cfg : Config)
    (batchHandler : List VRow → St → St × Bool × Option Err) :
    Nat → QP → St → Option (St × Option Err)
  | 0, _, _ => none
  | fuel + 1, qp, st =>
    match st with
    | ⟨ev0, rc0, vc0, fc0, bc0, lim0⟩ =>
      match cfg.viewResp vc0 qp (cfg.pageSize + 1) with
      | .er e =>
        some (⟨ev0 ++ [.viewQ qp (cfg.pageSize + 1) (.er e)], rc0, vc0 + 1, fc0, bc0, lim0⟩,
          some e)
      | .ok body =>
        match batchHandler (body.take cfg.pageSize)
            ⟨ev0 ++ [.viewQ qp (cfg.pageSize + 1) (.ok body)], rc0, vc0 + 1, fc0, bc0, lim0⟩ with
        | (st1, _, some e) => some (st1, some e)
        | (st1, cont, none) =>
          if cont then
            match body[cfg.pageSize]? with
            | some next =>
              getViewInBatches cfg batchHandler fuel
                { startkey := some next.key,
                  startkey_docid := if next.id.isSome then next.id else qp.startkey_docid }
                st1
            | none => some (st1, none)
          else some (st1, none)

def qp0 : QP := ⟨none, none⟩

def st0 (cfg : Config) : St := ⟨[], 0, 0, 0, 0, cfg.limit⟩

/-- The whole migration: the scanner driving the page handler, starting from
empty `sourceParams`.  The resulting `Option Err` is the argument the code
passes to `complete`. -/
def runMigration (cfg : Config) (fuel : Nat) : Option (St × Option Err) :=
  getViewInBatches cfg (handlePage cfg) fuel qp0 (st0 cfg)

/-- A trivial consumer that records each page it is handed; used to state
properties of the `ViewScanner` in isolation. -/
def pageLogger : List VRow → St → St × Bool × Option Err :=
  fun rows st =>
    match st with
    | ⟨ev, rc, vc, fc, bc, lim⟩ => (⟨ev ++ [.page rows], rc, vc, fc, bc, lim⟩, true, none)

/-- `options.retryConflicts` as a JS value: a number, a boolean, or absent. -/
inductive RetryOpt where
  | num (n : Int)
  | bool (b : Bool)
  | undef
deriving DecidableEq

/-- `options.retryConflicts === false ? 0 : options.retryConflicts || 2`,
as the numeric value used by the `retry >= retries` comparison
(JS coerces a stored `true` to 1 there; `0` is falsy, so `0 || 2` is 2). -/
def retriesCeil : RetryOpt → Int
  | .bool false => 0
  | .bool true => 1
  | .num n => if n = 0 then 2 else n
  | .undef => 2

/-! ### Trace observations -/

def countViewQ (l : List Event) : Nat :=
  l.countP fun e => match e with | .viewQ _ _ _ => true | _ => false

def countFetch (l : List Event) : Nat :=
  l.countP fun e => match e with | .fetch _ _ => true | _ => false

def countBulk (l : List Event) : Nat :=
  l.countP fun e => match e with | .bulk _ _ => true | _ => false

def countFKC (l : List Event) : Nat :=
  l.countP fun e => match e with | .fetchKeysCall _ _ => true | _ => false

def ticksOf (l : List Event) : List Nat :=
  l.filterMap fun e => match e with | .tick n => some n | _ => none

def failsOf (l : List Event) : List VRow :=
  l.filterMap fun e => match e with | .fail r => some r | _ => none

def pagesOf (l : List Event) : List (List VRow) :=
  l.filterMap fun e => match e with | .page rows => some rows | _ => none

def changesArgs (l : List Event) : List (Option (List (Option Doc))) :=
  l.filterMap fun e => match e with | .changesCall _ d _ => some d | _ => none

def viewLims (l : List Event) : List Nat :=
  l.filterMap fun e => match e with | .viewQ _ lim _ => some lim | _ => none

/-- The error carried by an event, when the recorded response was an error
(`tick`, `fail` and `page` events carry none). -/
def eventErr : Event → Option Err
  | .viewQ _ _ (.er e) => some e
  | .fetchKeysCall _ (.er e) => some e
  | .fetch _ (.er e) => some e
  | .changesCall _ _ (.er e) => some e
  | .bulk _ (.er e) => some e
  | _ => none

/-- Every event in the list got a successful response. -/
def cleanEvents (l : List Event) : Prop := ∀ e ∈ l, eventErr e = none

/-- How a run's appended trace `Δ` relates to its outcome: a successful run
saw only successful responses; a failed run's trace is a clean prefix
followed by exactly the failing call, whose error is the one reported to
`complete` — nothing runs after it. -/
def Decomp (Δ : List Event) : Option Err → Prop
  | none => cleanEvents Δ
  | some e => ∃ Δ1 elast, Δ = Δ1 ++ [elast] ∧ cleanEvents Δ1 ∧ eventErr elast = some e

/-- Trace of a (possibly out-of-fuel) scanner run. -/
def runEvents : Option (St × Option Err) → List Event
  | some (st, _) => st.events
  | none => []

/-- Completion argument of a scanner run (`some r` when the run finished and
invoked `complete r`; `none` when the model's fuel ran out). -/
def runOutcome : Option (St × Option Err) → Option (Option Err)
  | some (_, r) => some r
  | none => none

/-- The error of a node-style callback outcome (`cb(err)` vs `cb(null, x)`). -/
def resErr : Res α → Option Err
  | .ok _ => none
  | .er e => some e

/-! ### Concrete scenarios used by counterexamples and witnesses -/

/-- A pipeline configuration shared by the single-sub-batch scenarios; the
fields that matter are overridden per scenario. -/
def baseCfg : Config :=
  { pageSize := 1000, batchSize := 20, limit := none, retries := 2,
    sourceFilter := none, fetchKeys := none,
    changes := fun _ _ => .ok .noneC,
    viewResp := fun _ _ _ => .ok [],
    fetchResp := fun _ _ => .ok [],
    bulkResp := fun _ _ => .ok [] }

def rowA : VRow := ⟨1, none, 1⟩
def rowB : VRow := ⟨2, none, 2⟩

/-- C2 scenario: the first row's `changes` callback returns a bare single
change object `10`, the second returns the list `[20]`; the bulk write
reports `ok` for change `10` and a conflict for change `20`. -/
def cfgC2 : Config :=
  { baseCfg with
    changes := fun r _ => if r.val = 1 then .ok (.oneC 10) else .ok (.manyC [20]),
    bulkResp := fun _ _ => .ok [.ok, .conflict] }

def runC2 : St × Option Err := processBatch cfgC2 [⟨rowA, []⟩, ⟨rowB, []⟩] 0 (st0 cfgC2)

/-- C1 scenario: one row whose `fetchKeys` returns key `50`; the store
returns a different document (`100 + n`) on the n-th multi-get; the row's
single change conflicts on the first bulk write and succeeds on the
second. -/
def cfgC1 : Config :=
  { baseCfg with
    fetchKeys := some fun _ => .ok (.oneK 50),
    changes := fun _ _ => .ok (.manyC [30]),
    fetchResp := fun n _ => .ok [some (100 + n)],
    bulkResp := fun n _ => .ok (if n = 0 then [.conflict] else [.ok]) }

def runC1 : St × Option Err := getExtraKeyInfo cfgC1 [rowA] (st0 cfgC1)

/-- C9 scenario: `fetchKeys` not configured, one row producing no changes. -/
def cfgC9 : Config := baseCfg

def runC9 : St × Option Err := getExtraKeyInfo cfgC9 [rowA] (st0 cfgC9)

/-- A three-row view with strictly increasing keys. -/
def view3 : List VRow := [⟨0, none, 0⟩, ⟨1, none, 1⟩, ⟨2, none, 2⟩]

/-- C4 counterexample scenario: `limit = 0`, page size 2, three-row view. -/
def cfgC4ce : Config :=
  { baseCfg with
    pageSize := 2, limit := some 0,
    viewResp := fun _ qp lim => .ok (dbView view3 qp lim) }

/-- C5 counterexample scenario: an empty view, page size 2. -/
def cfgC5ce : Config :=
  { baseCfg with
    pageSize := 2,
    viewResp := fun _ qp lim => .ok (dbView [] qp lim) }

/-- C3 scenario: a single keyless row whose single change conflicts on every
bulk write, with retry ceiling `R`. -/
def cfgC3 (R : Nat) : Config :=
  { baseCfg with
    retries := (R : Int),
    changes := fun _ _ => .ok (.manyC [30]),
    bulkResp := fun _ docs => .ok (docs.map fun _ => .conflict) }

def erC3 : ERow := ⟨rowA, []⟩

/-- C7 scenario: two keyless rows; row A's change `1` always succeeds, row
B's change `2` conflicts on the first `k` bulk writes and succeeds from the
(k+1)-th on; retry ceiling `R`. -/
def cfgC7 (k R : Nat) : Config :=
  { baseCfg with
    retries := (R : Int),
    changes := fun r _ => if r.val = 1 then .ok (.manyC [1]) else .ok (.manyC [2]),
    bulkResp := fun n docs =>
      .ok (docs.map fun d => if d = 2 ∧ n < k then .conflict else .ok) }

def erA : ERow := ⟨rowA, []⟩
def erB : ERow := ⟨rowB, []⟩

/-- A five-row view with strictly increasing keys. -/
def view5 : List VRow :=
  [⟨0, none, 0⟩, ⟨1, none, 1⟩, ⟨2, none, 2⟩, ⟨3, none, 3⟩, ⟨4, none, 4⟩]

/-- C5 scenario: a correct store serving `view` with scanner page size
`P`. -/
def cfgC5 (view : List VRow) (P : Nat) : Config :=
  { baseCfg with
    pageSize := P,
    viewResp := fun _ qp lim => .ok (dbView view qp lim) }

/-- C4 scenario: a correct store serving `view`, a pure row filter `f`, page
size `P`, sub-batch size `B` and a configured row budget `L`; the transform
callbacks are trivial (no extra keys, no changes). -/
def cfgC4 (view : List VRow) (f : VRow → Bool) (P B : Nat) (L : Int) : Config :=
  { pageSize := P, batchSize := B, limit := some L, retries := 2,
    sourceFilter := some (fun r => .ok (f r)),
    fetchKeys := none,
    changes := fun _ _ => .ok .noneC,
    viewResp := fun _ qp lim => .ok (dbView view qp lim),
    fetchResp := fun _ _ => .ok [],
    bulkResp := fun _ _ => .ok [] }

/-- C8 scenario: a filter that throws on rows with `val = 1` and accepts the
rest. -/
def filtC8 : VRow → Res Bool := fun r => if r.val = 1 then .er 5 else .ok true

def cfgC8 : Config :=
  { baseCfg with sourceFilter := some filtC8 }

/-- C6 witness scenario: a correct store for a three-row view, but a bulk
write that always fails with transport error 7. -/
def cfgC6w : Config :=
  { baseCfg with
    pageSize := 2,
    viewResp := fun _ qp lim => .ok (dbView view3 qp lim),
    changes := fun _ _ => .ok (.manyC [5]),
    bulkResp := fun _ _ => .er 7 }

/-! ## Theorems -/

/-! ### Shared lemmas about trace observations -/


theorem changesArgs_append (a b : List Event) :
    changesArgs (a ++ b) = changesArgs a ++ changesArgs b :=
  List.filterMap_append a b _

theorem ticksOf_append (a b : List Event) :
    ticksOf (a ++ b) = ticksOf a ++ ticksOf b :=
  List.filterMap_append a b _

theorem failsOf_append (a b : List Event) :
    failsOf (a ++ b) = failsOf a ++ failsOf b :=
  List.filterMap_append a b _

theorem pagesOf_append (a b : List Event) :
    pagesOf (a ++ b) = pagesOf a ++ pagesOf b :=
  List.filterMap_append a b _

theorem viewLims_append (a b : List Event) :
    viewLims (a ++ b) = viewLims a ++ viewLims b :=
  List.filterMap_append a b _

theorem countFetch_append (a b : List Event) :
    countFetch (a ++ b) = countFetch a + countFetch b :=
  List.countP_append _ a b

theorem countBulk_append (a b : List Event) :
    countBulk (a ++ b) = countBulk a + countBulk b :=
  List.countP_append _ a b

theorem countFKC_append (a b : List Event) :
    countFKC (a ++ b) = countFKC a + countFKC b :=
  List.countP_append _ a b

theorem countViewQ_append (a b : List Event) :
    countViewQ (a ++ b) = countViewQ a + countViewQ b :=
  List.countP_append _ a b

theorem countFetch_failMap (rows : List ERow) :
    countFetch (rows.map fun r => Event.fail r.row) = 0 := by
  induction rows with
  | nil => simp [countFetch]
  | cons r rs ih => simp [countFetch, List.countP_cons, ih]

theorem changesArgs_failMap (rows : List ERow) :
    changesArgs (rows.map fun r => Event.fail r.row) = [] := by
  induction rows with
  | nil => simp [changesArgs]
  | cons r rs ih => simp [changesArgs, List.filterMap_cons, ih]

/-- In `runChanges` with no fetched documents (`extraDocs = []`), every
`changes` call receives `undefined` (`none`), and no fetch event is
produced. -/
theorem runChangesGo_noDocs (cfg : Config) (rows : List ERow) : ∀ i ev,
    ∃ Δ, (runChangesGo cfg [] rows i ev).1 = ev ++ Δ ∧
      countFetch Δ = 0 ∧ ∀ d ∈ changesArgs Δ, d = none := by
  induction rows with
  | nil =>
    intro i ev
    exact ⟨[], by simp [runChangesGo], by simp [countFetch], by simp [changesArgs]⟩
  | cons r rs ih =>
    intro i ev
    simp only [runChangesGo, List.getElem?_nil]
    cases hc : cfg.changes r.row none with
    | er e =>
      refine ⟨[.changesCall r.row none (.er e)], rfl, by simp [countFetch], ?_⟩
      simp [changesArgs]
    | ok cr =>
      obtain ⟨Δ, hΔ, hf, ha⟩ := ih (i + 1) (ev ++ [.changesCall r.row none (.ok cr)])
      cases hI : runChangesGo cfg [] rs (i + 1) (ev ++ [.changesCall r.row none (.ok cr)]) with
      | mk ev1 res =>
        have hev1 : ev1 = ev ++ ([.changesCall r.row none (.ok cr)] ++ Δ) := by
          have := hΔ
          rw [hI] at this
          simpa [List.append_assoc] using this
        refine ⟨[.changesCall r.row none (.ok cr)] ++ Δ, ?_, ?_, ?_⟩
        · cases res with
          | er e => dsimp only; rw [hI]; simpa using hev1
          | ok rest => dsimp only; rw [hI]; simpa using hev1
        · simp [countFetch_append] at hf ⊢
          simpa [countFetch] using hf
        · intro d hd
          rw [changesArgs_append] at hd
          rcases List.mem_append.1 hd with h1 | h2
          · simpa [changesArgs] using h1
          · exact ha d h2

/-- One attempt on a sub-batch whose rows carry no extra keys performs no
multi-get, passes `undefined` to every `changes` callback, and leaves the
`limit` budget untouched. -/
theorem attemptOnce_noKeys (cfg : Config) (batch : List ERow) (st : St)
    (hb : ∀ r ∈ batch, r.extraKeys = []) :
    ∃ Δ, (attemptOnce cfg batch st).1.events = st.events ++ Δ ∧
      (attemptOnce cfg batch st).1.limit = st.limit ∧
      countFetch Δ = 0 ∧
      ∀ d ∈ changesArgs Δ, d = none := by
  obtain ⟨ev, rc, vc, fc, bc, lim⟩ := st
  have hk : (List.map (fun r => r.extraKeys) batch).flatten = [] :=
    List.flatten_eq_nil_iff.2 (by
      intro x hx
      obtain ⟨r, hr, rfl⟩ := List.mem_map.1 hx
      exact hb r hr)
  obtain ⟨Δc, hΔc, hfc, hac⟩ := runChangesGo_noDocs cfg batch 0 ev
  simp only [attemptOnce, hk, List.isEmpty_nil, if_true]
  cases hR : runChangesGo cfg [] batch 0 ev with
  | mk ev2 res =>
    have hev2 : ev2 = ev ++ Δc := by rw [hR] at hΔc; simpa using hΔc
    cases res with
    | er e => exact ⟨Δc, by simp [hR, hev2], by simp [hR], hfc, hac⟩
    | ok jsChs =>
      cases hbr : cfg.bulkResp bc ((jsChs.map flat1).flatten) with
      | er e =>
        refine ⟨Δc ++ [.bulk ((jsChs.map flat1).flatten) (.er e)], ?_, ?_, ?_, ?_⟩
        · simp [hR, hbr, hev2]
        · simp [hR, hbr]
        · rw [countFetch_append, hfc]
          simp [countFetch]
        · intro d hd
          rw [changesArgs_append] at hd
          rcases List.mem_append.1 hd with h1 | h2
          · exact hac d h1
          · simp [changesArgs] at h2
      | ok results =>
        refine ⟨Δc ++ [.bulk ((jsChs.map flat1).flatten) (.ok results),
          .tick (batch.length -
            (((batch.zip (unflatten results (jsChs.map jsLen) (some 0))).filter
              (fun p => p.2.any isConflict)).map (·.1)).length)], ?_, ?_, ?_, ?_⟩
        · simp [hR, hbr, hev2]
        · simp [hR, hbr]
        · rw [countFetch_append, hfc]
          simp [countFetch]
        · intro d hd
          rw [changesArgs_append] at hd
          rcases List.mem_append.1 hd with h1 | h2
          · exact hac d h1
          · simp [changesArgs] at h2

/-- The retry-needed subset computed by one attempt consists of rows of the
attempted sub-batch. -/
theorem attemptOnce_subset (cfg : Config) (batch : List ERow) (st : St) (nb : List ERow)
    (h : (attemptOnce cfg batch st).2 = .ok nb) : ∀ x ∈ nb, x ∈ batch := by
  obtain ⟨ev, rc, vc, fc, bc, lim⟩ := st
  simp only [attemptOnce] at h
  split at h
  · simp at h
  · split at h
    · simp at h
    · split at h
      · simp at h
      · simp only [Res.ok.injEq] at h
        subst h
        intro x hx
        obtain ⟨p, hp, rfl⟩ := List.mem_map.1 hx
        exact (List.of_mem_zip (List.mem_filter.1 hp).1).1

/-- The whole retry loop on a sub-batch whose rows carry no extra keys
performs no multi-get on any attempt, and every `changes` invocation it
records receives `undefined` documents. -/
theorem processBatchAux_noKeys (cfg : Config) :
    ∀ (budget : Nat) (batch : List ERow) (retry : Nat) (st : St),
    (∀ r ∈ batch, r.extraKeys = []) →
    (∀ d ∈ changesArgs st.events, d = none) →
    countFetch (processBatchAux cfg budget batch retry st).1.events = countFetch st.events ∧
    ∀ d ∈ changesArgs (processBatchAux cfg budget batch retry st).1.events, d = none := by
  intro budget
  induction budget with
  | zero =>
    intro batch retry st hb hin
    obtain ⟨Δ, hev, hlim, hcf, hca⟩ := attemptOnce_noKeys cfg batch st hb
    simp only [processBatchAux]
    cases hA : attemptOnce cfg batch st with
    | mk st1 res =>
      rw [hA] at hev hlim
      have hFetch1 : countFetch st1.events = countFetch st.events := by
        simp only at hev
        simp [hev, countFetch_append, hcf]
      have hArgs1 : ∀ d ∈ changesArgs st1.events, d = none := by
        intro d hd
        simp only at hev
        rw [hev, changesArgs_append] at hd
        rcases List.mem_append.1 hd with h1 | h2
        · exact hin d h1
        · exact hca d h2
      cases res with
      | er e => exact ⟨hFetch1, hArgs1⟩
      | ok nb =>
        cases hnb : nb with
        | nil => simpa using ⟨hFetch1, hArgs1⟩
        | cons x xs =>
          by_cases hr : (retry : Int) ≥ cfg.retries
          · obtain ⟨ev1, rc1, vc1, fc1, bc1, lim1⟩ := st1
            have h0 := countFetch_failMap (x :: xs)
            have h1 := changesArgs_failMap (x :: xs)
            simp only [List.isEmpty_cons, Bool.false_eq_true, if_false, if_pos hr]
            constructor
            · rw [countFetch_append, h0]
              simpa using hFetch1
            · intro d hd
              rw [changesArgs_append, h1, List.append_nil] at hd
              exact hArgs1 d hd
          · simp only [List.isEmpty_cons, Bool.false_eq_true, if_false, if_neg hr]
            exact ⟨hFetch1, hArgs1⟩
  | succ b ih =>
    intro batch retry st hb hin
    obtain ⟨Δ, hev, hlim, hcf, hca⟩ := attemptOnce_noKeys cfg batch st hb
    simp only [processBatchAux]
    cases hA : attemptOnce cfg batch st with
    | mk st1 res =>
      rw [hA] at hev hlim
      have hFetch1 : countFetch st1.events = countFetch st.events := by
        simp only at hev
        simp [hev, countFetch_append, hcf]
      have hArgs1 : ∀ d ∈ changesArgs st1.events, d = none := by
        intro d hd
        simp only at hev
        rw [hev, changesArgs_append] at hd
        rcases List.mem_append.1 hd with h1 | h2
        · exact hin d h1
        · exact hca d h2
      cases res with
      | er e => exact ⟨hFetch1, hArgs1⟩
      | ok nb =>
        have hsub : ∀ x ∈ nb, x ∈ batch :=
          attemptOnce_subset cfg batch st nb (by rw [hA])
        cases hnb : nb with
        | nil => simpa using ⟨hFetch1, hArgs1⟩
        | cons x xs =>
          by_cases hr : (retry : Int) ≥ cfg.retries
          · obtain ⟨ev1, rc1, vc1, fc1, bc1, lim1⟩ := st1
            have h0 := countFetch_failMap (x :: xs)
            have h1 := changesArgs_failMap (x :: xs)
            simp only [List.isEmpty_cons, Bool.false_eq_true, if_false, if_pos hr]
            constructor
            · rw [countFetch_append, h0]
              simpa using hFetch1
            · intro d hd
              rw [changesArgs_append, h1, List.append_nil] at hd
              exact hArgs1 d hd
          · simp only [List.isEmpty_cons, Bool.false_eq_true, if_false, if_neg hr]
            have hb1 : ∀ r ∈ x :: xs, r.extraKeys = [] := by
              intro r hrm
              exact hb r (hsub r (by rw [hnb]; exact hrm))
            obtain ⟨ihf, iha⟩ := ih (x :: xs) (retry + 1) st1 hb1 hArgs1
            exact ⟨by rw [ihf, hFetch1], iha⟩

theorem countFetch_fkcMap (rows : List VRow) :
    countFetch (rows.map fun r => Event.fetchKeysCall r (Res.ok KeysRet.noneK)) = 0 := by
  induction rows with
  | nil => simp [countFetch]
  | cons r rs ih => simp [countFetch, List.countP_cons, ih]

theorem changesArgs_fkcMap (rows : List VRow) :
    changesArgs (rows.map fun r => Event.fetchKeysCall r (Res.ok KeysRet.noneK)) = [] := by
  induction rows with
  | nil => simp [changesArgs]
  | cons r rs ih => simp [changesArgs, List.filterMap_cons, ih]

/-- The default `fetchKeys` callback (`function(key, cb) {cb();}`) answers
`undefined` for every row and never fails. -/
theorem fetchKeysGo_default (rows : List VRow) : ∀ ev,
    fetchKeysGo (fun _ => Res.ok KeysRet.noneK) rows ev =
      (ev ++ rows.map (fun r => Event.fetchKeysCall r (.ok .noneK)),
       .ok (List.replicate rows.length .noneK)) := by
  induction rows with
  | nil => intro ev; simp [fetchKeysGo]
  | cons r rs ih => intro ev; simp [fetchKeysGo, ih, List.replicate_succ]

/-- Attaching the normalized default keys gives every row an empty
`extraKeys` list. -/
theorem zipWith_noneK (rows : List VRow) :
    List.zipWith (fun r kr => (⟨r, normKeys kr⟩ : ERow)) rows
        (List.replicate rows.length .noneK) =
      rows.map (fun r => ⟨r, []⟩) := by
  induction rows with
  | nil => simp
  | cons r rs ih =>
    simp [List.replicate_succ, ih, show normKeys KeysRet.noneK = [] from rfl]

/-- C9 (amended): if the `fetchKeys` callback is not configured, no
multi-get store call is made during the sub-batch pipeline (original
attempt and retries alike) — but each row's `changes` callback receives
JavaScript `undefined` (`none`) as its second argument (the empty
`extraDocs` array indexed out of bounds), not an empty document
collection. -/
theorem unconfigured_fetchKeys_no_multiget (cfg : Config) (batch : List VRow) (st : St)
    (hfk : cfg.fetchKeys = none)
    (hin : ∀ d ∈ changesArgs st.events, d = none) :
    countFetch (getExtraKeyInfo cfg batch st).1.events = countFetch st.events ∧
    ∀ d ∈ changesArgs (getExtraKeyInfo cfg batch st).1.events, d = none := by
  obtain ⟨ev, rc, vc, fc, bc, lim⟩ := st
  simp only at hin
  simp only [getExtraKeyInfo, hfk]
  rw [fetchKeysGo_default]
  dsimp only
  rw [zipWith_noneK]
  have hb : ∀ r' ∈ batch.map (fun r => (⟨r, []⟩ : ERow)), r'.extraKeys = [] := by
    intro r' hr'
    obtain ⟨r, _, rfl⟩ := List.mem_map.1 hr'
    rfl
  have hin1 : ∀ d ∈ changesArgs
      (ev ++ batch.map fun r => Event.fetchKeysCall r (Res.ok KeysRet.noneK)), d = none := by
    intro d hd
    rw [changesArgs_append, changesArgs_fkcMap, List.append_nil] at hd
    exact hin d hd
  simp only [processBatch]
  obtain ⟨h1, h2⟩ := processBatchAux_noKeys cfg ((cfg.retries - ((0 : Nat) : Int)).toNat)
    (batch.map fun r => (⟨r, []⟩ : ERow)) 0
    ⟨ev ++ batch.map (fun r => Event.fetchKeysCall r (Res.ok KeysRet.noneK)), rc, vc, fc, bc, lim⟩
    hb hin1
  refine ⟨?_, h2⟩
  rw [h1]
  simp [countFetch_append, countFetch_fkcMap]

/-- Witness for C9's amended theorem at a concrete configuration. -/
theorem unconfigured_fetchKeys_no_multiget_witness :
    cfgC9.fetchKeys = none ∧
    (countFetch (getExtraKeyInfo cfgC9 [rowA] (st0 cfgC9)).1.events =
        countFetch (st0 cfgC9).events ∧
      ∀ d ∈ changesArgs (getExtraKeyInfo cfgC9 [rowA] (st0 cfgC9)).1.events, d = none) :=
  ⟨rfl, unconfigured_fetchKeys_no_multiget cfgC9 [rowA] (st0 cfgC9) rfl
    (by intro d hd; simp [st0, changesArgs] at hd)⟩

theorem countBulk_failMap (rows : List ERow) :
    countBulk (rows.map fun r => Event.fail r.row) = 0 := by
  induction rows with
  | nil => simp [countBulk]
  | cons r rs ih => simp [countBulk, List.countP_cons, ih]

theorem countFKC_failMap (rows : List ERow) :
    countFKC (rows.map fun r => Event.fail r.row) = 0 := by
  induction rows with
  | nil => simp [countFKC]
  | cons r rs ih => simp [countFKC, List.countP_cons, ih]

/-- The change-generation loop records only `changesCall` events: it issues
no store calls and no `fetchKeys` calls. -/
theorem runChangesGo_counts (cfg : Config) (docs : List (List (Option Doc)))
    (rows : List ERow) : ∀ i ev,
    countFKC (runChangesGo cfg docs rows i ev).1 = countFKC ev ∧
    countFetch (runChangesGo cfg docs rows i ev).1 = countFetch ev ∧
    countBulk (runChangesGo cfg docs rows i ev).1 = countBulk ev := by
  induction rows with
  | nil => intro i ev; simp [runChangesGo]
  | cons r rs ih =>
    intro i ev
    simp only [runChangesGo]
    cases hc : cfg.changes r.row docs[i]? with
    | er e =>
      refine ⟨?_, ?_, ?_⟩
      · rw [countFKC_append]; simp [countFKC]
      · rw [countFetch_append]; simp [countFetch]
      · rw [countBulk_append]; simp [countBulk]
    | ok cr =>
      obtain ⟨h1, h2, h3⟩ := ih (i + 1) (ev ++ [.changesCall r.row docs[i]? (.ok cr)])
      cases hI : runChangesGo cfg docs rs (i + 1)
          (ev ++ [.changesCall r.row docs[i]? (.ok cr)]) with
      | mk ev1 res =>
        rw [hI] at h1 h2 h3
        simp only at h1 h2 h3
        rw [countFKC_append] at h1
        rw [countFetch_append] at h2
        rw [countBulk_append] at h3
        simp only [countFKC, countFetch, countBulk, List.countP_cons, List.countP_nil] at h1 h2 h3
        cases res with
        | er e =>
          dsimp only
          rw [hI]
          exact ⟨by simpa [countFKC] using h1, by simpa [countFetch] using h2,
            by simpa [countBulk] using h3⟩
        | ok rest =>
          dsimp only
          rw [hI]
          exact ⟨by simpa [countFKC] using h1, by simpa [countFetch] using h2,
            by simpa [countBulk] using h3⟩

/-- A successful attempt on a sub-batch whose rows all carry extra keys
performs exactly one multi-get and exactly one bulk write, and never invokes
`fetchKeys`. -/
theorem attemptOnce_withKeys (cfg : Config) (batch : List ERow) (st : St) (st1 : St)
    (nb : List ERow) (hb : ∀ r ∈ batch, r.extraKeys ≠ []) (hne : batch ≠ [])
    (hA : attemptOnce cfg batch st = (st1, .ok nb)) :
    countFKC st1.events = countFKC st.events ∧
    countFetch st1.events = countFetch st.events + 1 ∧
    countBulk st1.events = countBulk st.events + 1 := by
  obtain ⟨ev, rc, vc, fc, bc, lim⟩ := st
  have hkne : ((batch.map (fun r => r.extraKeys)).flatten).isEmpty = false := by
    cases batch with
    | nil => exact absurd rfl hne
    | cons r rs =>
      have hr : r.extraKeys ≠ [] := hb r (List.mem_cons_self r rs)
      simp only [List.map_cons, List.flatten_cons, List.isEmpty_eq_false]
      intro h
      exact hr (List.append_eq_nil.1 h).1
  simp only [attemptOnce, hkne, Bool.false_eq_true, if_false] at hA
  cases hf : cfg.fetchResp fc ((batch.map (fun r => r.extraKeys)).flatten) with
  | er e =>
    rw [hf] at hA
    simp at hA
  | ok docs =>
    rw [hf] at hA
    dsimp only at hA
    obtain ⟨h1, h2, h3⟩ := runChangesGo_counts cfg
      (unflatten docs ((batch.map (fun r => r.extraKeys)).map (fun l => some l.length)) (some 0))
      batch 0
      (ev ++ [.fetch ((batch.map (fun r => r.extraKeys)).flatten) (.ok docs)])
    cases hR : runChangesGo cfg
        (unflatten docs ((batch.map (fun r => r.extraKeys)).map (fun l => some l.length)) (some 0))
        batch 0
        (ev ++ [.fetch ((batch.map (fun r => r.extraKeys)).flatten) (.ok docs)]) with
    | mk ev2 res2 =>
      rw [hR] at hA h1 h2 h3
      simp only at h1 h2 h3
      rw [countFKC_append] at h1
      rw [countFetch_append] at h2
      rw [countBulk_append] at h3
      have s1 : countFKC [Event.fetch ((batch.map (fun r => r.extraKeys)).flatten) (.ok docs)] = 0 := by
        simp [countFKC]
      have s2 : countFetch [Event.fetch ((batch.map (fun r => r.extraKeys)).flatten) (.ok docs)] = 1 := by
        simp [countFetch]
      have s3 : countBulk [Event.fetch ((batch.map (fun r => r.extraKeys)).flatten) (.ok docs)] = 0 := by
        simp [countBulk]
      rw [s1] at h1
      rw [s2] at h2
      rw [s3] at h3
      cases res2 with
      | er e => simp at hA
      | ok jsChs =>
        dsimp only at hA
        cases hbr : cfg.bulkResp bc ((jsChs.map flat1).flatten) with
        | er e =>
          rw [hbr] at hA
          simp at hA
        | ok results =>
          rw [hbr] at hA
          dsimp only at hA
          have hst : (⟨ev2 ++ [.bulk ((jsChs.map flat1).flatten) (.ok results),
              .tick (batch.length -
                (((batch.zip (unflatten results (jsChs.map jsLen) (some 0))).filter
                  (fun p => p.2.any isConflict)).map (·.1)).length)],
              rc + (batch.length -
                (((batch.zip (unflatten results (jsChs.map jsLen) (some 0))).filter
                  (fun p => p.2.any isConflict)).map (·.1)).length),
              vc, fc + 1, bc + 1, lim⟩ : St) = st1 :=
            congrArg Prod.fst hA
          subst hst
          have t1 : countFKC [Event.bulk ((jsChs.map flat1).flatten) (.ok results),
              Event.tick (batch.length -
                (((batch.zip (unflatten results (jsChs.map jsLen) (some 0))).filter
                  (fun p => p.2.any isConflict)).map (·.1)).length)] = 0 := by
            simp [countFKC]
          have t2 : countFetch [Event.bulk ((jsChs.map flat1).flatten) (.ok results),
              Event.tick (batch.length -
                (((batch.zip (unflatten results (jsChs.map jsLen) (some 0))).filter
                  (fun p => p.2.any isConflict)).map (·.1)).length)] = 0 := by
            simp [countFetch]
          have t3 : countBulk [Event.bulk ((jsChs.map flat1).flatten) (.ok results),
              Event.tick (batch.length -
                (((batch.zip (unflatten results (jsChs.map jsLen) (some 0))).filter
                  (fun p => p.2.any isConflict)).map (·.1)).length)] = 1 := by
            simp [countBulk]
          refine ⟨?_, ?_, ?_⟩
          · dsimp only
            rw [countFKC_append, t1, h1]
            omega
          · dsimp only
            rw [countFetch_append, t2, h2]
          · dsimp only
            rw [countBulk_append, t3, h3]

/-- Along any successfully resolved run of the retry loop over rows that all
carry extra keys, the number of multi-get fetches equals the number of bulk
writes (one per attempt, the original included), and `fetchKeys` is never
invoked. -/
theorem processBatchAux_withKeys (cfg : Config) :
    ∀ (budget : Nat) (batch : List ERow) (retry : Nat) (st st' : St),
    (∀ r ∈ batch, r.extraKeys ≠ []) → batch ≠ [] →
    processBatchAux cfg budget batch retry st = (st', none) →
    countFKC st'.events = countFKC st.events ∧
    ∃ a, 1 ≤ a ∧ countFetch st'.events = countFetch st.events + a ∧
      countBulk st'.events = countBulk st.events + a := by
  intro budget
  induction budget with
  | zero =>
    intro batch retry st st' hb hne hrun
    simp only [processBatchAux] at hrun
    cases hA : attemptOnce cfg batch st with
    | mk st1 res =>
      rw [hA] at hrun
      cases res with
      | er e =>
        dsimp only at hrun
        exact absurd (congrArg Prod.snd hrun) (by simp)
      | ok nb =>
        dsimp only at hrun
        cases nb with
        | nil =>
          simp only [List.isEmpty_nil, if_true] at hrun
          obtain ⟨h1, h2, h3⟩ := attemptOnce_withKeys cfg batch st st1 [] hb hne hA
          have hst' : st1 = st' := congrArg Prod.fst hrun
          subst hst'
          exact ⟨h1, 1, le_refl 1, h2, h3⟩
        | cons x xs =>
          simp only [List.isEmpty_cons, Bool.false_eq_true, if_false] at hrun
          by_cases hr : (retry : Int) ≥ cfg.retries
          · rw [if_pos hr] at hrun
            obtain ⟨h1, h2, h3⟩ := attemptOnce_withKeys cfg batch st st1 (x :: xs) hb hne hA
            obtain ⟨ev1, rc1, vc1, fc1, bc1, lim1⟩ := st1
            dsimp only at hrun
            have hst' : (⟨ev1 ++ (x :: xs).map (fun r => Event.fail r.row),
                rc1, vc1, fc1, bc1, lim1⟩ : St) = st' := congrArg Prod.fst hrun
            subst hst'
            simp only at h1 h2 h3
            refine ⟨?_, 1, le_refl 1, ?_, ?_⟩
            · dsimp only
              rw [countFKC_append, countFKC_failMap, h1]
              omega
            · dsimp only
              rw [countFetch_append, countFetch_failMap, h2]
            · dsimp only
              rw [countBulk_append, countBulk_failMap, h3]
          · rw [if_neg hr] at hrun
            obtain ⟨h1, h2, h3⟩ := attemptOnce_withKeys cfg batch st st1 (x :: xs) hb hne hA
            have hst' : st1 = st' := congrArg Prod.fst hrun
            subst hst'
            exact ⟨h1, 1, le_refl 1, h2, h3⟩
  | succ b ih =>
    intro batch retry st st' hb hne hrun
    simp only [processBatchAux] at hrun
    cases hA : attemptOnce cfg batch st with
    | mk st1 res =>
      rw [hA] at hrun
      cases res with
      | er e =>
        dsimp only at hrun
        exact absurd (congrArg Prod.snd hrun) (by simp)
      | ok nb =>
        dsimp only at hrun
        have hsub : ∀ x ∈ nb, x ∈ batch :=
          attemptOnce_subset cfg batch st nb (by rw [hA])
        cases nb with
        | nil =>
          simp only [List.isEmpty_nil, if_true] at hrun
          obtain ⟨h1, h2, h3⟩ := attemptOnce_withKeys cfg batch st st1 [] hb hne hA
          have hst' : st1 = st' := congrArg Prod.fst hrun
          subst hst'
          exact ⟨h1, 1, le_refl 1, h2, h3⟩
        | cons x xs =>
          simp only [List.isEmpty_cons, Bool.false_eq_true, if_false] at hrun
          by_cases hr : (retry : Int) ≥ cfg.retries
          · rw [if_pos hr] at hrun
            obtain ⟨h1, h2, h3⟩ := attemptOnce_withKeys cfg batch st st1 (x :: xs) hb hne hA
            obtain ⟨ev1, rc1, vc1, fc1, bc1, lim1⟩ := st1
            dsimp only at hrun
            have hst' : (⟨ev1 ++ (x :: xs).map (fun r => Event.fail r.row),
                rc1, vc1, fc1, bc1, lim1⟩ : St) = st' := congrArg Prod.fst hrun
            subst hst'
            simp only at h1 h2 h3
            refine ⟨?_, 1, le_refl 1, ?_, ?_⟩
            · dsimp only
              rw [countFKC_append, countFKC_failMap, h1]
              omega
            · dsimp only
              rw [countFetch_append, countFetch_failMap, h2]
            · dsimp only
              rw [countBulk_append, countBulk_failMap, h3]
          · rw [if_neg hr] at hrun
            obtain ⟨h1, h2, h3⟩ := attemptOnce_withKeys cfg batch st st1 (x :: xs) hb hne hA
            have hb1 : ∀ r ∈ x :: xs, r.extraKeys ≠ [] := fun r hrm => hb r (hsub r hrm)
            obtain ⟨ih1, a, ha, ih2, ih3⟩ :=
              ih (x :: xs) (retry + 1) st1 st' hb1 (by simp) hrun
            refine ⟨by rw [ih1, h1], a + 1, by omega, ?_, ?_⟩
            · rw [ih2, h2]
              omega
            · rw [ih3, h3]
              omega

/-- C1 (amended): when a conflict retry occurs, the pipeline for the retried
subset restarts at the *multi-get enrichment fetch*, not at change
generation: the `fetchKeys` callback is never re-invoked (the keys cached on
the rows are reused), but the multi-get itself is re-performed on every
attempt whose rows have extra keys — one fetch per bulk-write attempt — and
the `changes` callbacks of a retry receive the documents of that attempt's
fresh fetch (see the counterexample for a run where they differ). -/
theorem retry_restarts_at_fetch (cfg : Config) (batch : List ERow) (retry : Nat)
    (st st' : St) (hb : ∀ r ∈ batch, r.extraKeys ≠ []) (hne : batch ≠ [])
    (hrun : processBatch cfg batch retry st = (st', none)) :
    countFKC st'.events = countFKC st.events ∧
    ∃ a, 1 ≤ a ∧ countFetch st'.events = countFetch st.events + a ∧
      countBulk st'.events = countBulk st.events + a :=
  processBatchAux_withKeys cfg ((cfg.retries - (retry : Int)).toNat) batch retry st st'
    hb hne hrun

/-- Witness for C1's amended theorem: the concrete conflict-retry scenario
`cfgC1` resolves with two attempts, two fetches, and no `fetchKeys` call. -/
theorem retry_restarts_at_fetch_witness :
    ∃ st', processBatch cfgC1 [⟨rowA, [50]⟩] 0 (st0 cfgC1) = (st', none) ∧
      (countFKC st'.events = countFKC (st0 cfgC1).events ∧
        ∃ a, 1 ≤ a ∧ countFetch st'.events = countFetch (st0 cfgC1).events + a ∧
          countBulk st'.events = countBulk (st0 cfgC1).events + a) :=
  ⟨_, rfl, retry_restarts_at_fetch cfgC1 [⟨rowA, [50]⟩] 0 (st0 cfgC1) _
    (by decide) (by decide) rfl⟩

/-- One attempt of the C3 scenario: the single change conflicts, zero
successes are ticked, and the row survives into the retry set. -/
theorem cfgC3_attempt (R : Nat) (ev : List Event) (rc vc fc bc : Nat) (lim : Option Int) :
    attemptOnce (cfgC3 R) [erC3] ⟨ev, rc, vc, fc, bc, lim⟩ =
      (⟨(ev ++ [.changesCall rowA none (.ok (.manyC [30]))]) ++
        [.bulk [30] (.ok [.conflict]), .tick 0], rc, vc, fc, bc + 1, lim⟩, .ok [erC3]) := rfl

/-- The C3 retry loop entered at retry `m` with fuel `b`, `m + b = R`,
performs `b + 1` further bulk attempts, reports the row as failed exactly
once, and adds no successes. -/
theorem c3_loop (R : Nat) : ∀ (b m : Nat) (st : St), m + b = R →
    ∃ st', processBatchAux (cfgC3 R) b [erC3] m st = (st', none) ∧
      countBulk st'.events = countBulk st.events + (b + 1) ∧
      failsOf st'.events = failsOf st.events ++ [rowA] ∧
      st'.realcurrent = st.realcurrent := by
  intro b
  induction b with
  | zero =>
    intro m st hm
    obtain ⟨ev, rc, vc, fc, bc, lim⟩ := st
    have hge : ((m : Nat) : Int) ≥ (cfgC3 R).retries := by
      show ((m : Int)) ≥ (R : Int)
      omega
    simp only [processBatchAux, cfgC3_attempt]
    simp only [List.isEmpty_cons, Bool.false_eq_true, if_false, if_pos hge]
    refine ⟨_, rfl, ?_, ?_, ?_⟩
    · dsimp only
      simp [countBulk_append, countBulk]
    · dsimp only
      simp [failsOf_append, failsOf, erC3]
    · rfl
  | succ b ih =>
    intro m st hm
    obtain ⟨ev, rc, vc, fc, bc, lim⟩ := st
    have hlt : ¬ ((m : Nat) : Int) ≥ (cfgC3 R).retries := by
      show ¬ ((m : Int)) ≥ (R : Int)
      omega
    simp only [processBatchAux, cfgC3_attempt]
    simp only [List.isEmpty_cons, Bool.false_eq_true, if_false, if_neg hlt]
    obtain ⟨st', hrun, hbk, hfl, hrc⟩ := ih (m + 1)
      ⟨(ev ++ [Event.changesCall rowA none (Res.ok (ChgRet.manyC [30]))]) ++
        [Event.bulk [30] (Res.ok [WriteRes.conflict]), Event.tick 0],
        rc, vc, fc, bc + 1, lim⟩ (by omega)
    refine ⟨st', hrun, ?_, ?_, ?_⟩
    · rw [hbk]
      dsimp only
      simp [countBulk_append, countBulk]
      omega
    · rw [hfl]
      dsimp only
      simp [failsOf_append, failsOf]
    · rw [hrc]

/-- C3: a row whose bulk write conflicts on every attempt is reported as a
permanent failure (one `reportFailure`, i.e. one `fail` event) after exactly
`retries + 1` total bulk-write attempts, where `retries` is the effective
conflict-retry ceiling; it is never retried further, counted as neither a
success (the running success counter is unchanged) nor a fatal error (the
sub-batch resolves with no error, so the migration continues with the next
sub-batch or page). -/
theorem conflict_retry_exhaustion (R : Nat) :
    ∃ st', processBatch (cfgC3 R) [erC3] 0 (st0 (cfgC3 R)) = (st', none) ∧
      countBulk st'.events = R + 1 ∧
      failsOf st'.events = [rowA] ∧
      st'.realcurrent = 0 := by
  have hbudget : ((cfgC3 R).retries - ((0 : Nat) : Int)).toNat = R := by
    show ((R : Int) - ((0 : Nat) : Int)).toNat = R
    omega
  obtain ⟨st', hrun, hbk, hfl, hrc⟩ := c3_loop R R 0 (st0 (cfgC3 R)) (by omega)
  refine ⟨st', ?_, ?_, ?_, ?_⟩
  · simp only [processBatch, hbudget]
    exact hrun
  · simpa [st0, countBulk] using hbk
  · simpa [st0, failsOf] using hfl
  · simpa [st0] using hrc

/-- C7 scenario, one attempt on both rows (first bulk call): row A succeeds,
row B conflicts; one success is ticked and row B survives. -/
theorem c7_attempt_AB (k R : Nat) (hk : 0 < k) (ev : List Event) (rc vc fc : Nat)
    (lim : Option Int) :
    attemptOnce (cfgC7 k R) [erA, erB] ⟨ev, rc, vc, fc, 0, lim⟩ =
      (⟨((ev ++ [.changesCall rowA none (.ok (.manyC [1]))]) ++
          [.changesCall rowB none (.ok (.manyC [2]))]) ++
        [.bulk [1, 2] (.ok [.ok, .conflict]), .tick 1], rc + 1, vc, fc, 1, lim⟩,
        .ok [erB]) := by
  simp [attemptOnce, runChangesGo, cfgC7, baseCfg, erA, erB, rowA, rowB, normChg, flat1,
    jsLen, unflatten, isConflict, hk]

/-- C7 scenario, one attempt on row B alone while its change still conflicts
(bulk call `m < k`): zero successes are ticked and row B survives. -/
theorem c7_attempt_B_conflict (k R m : Nat) (hm : m < k) (ev : List Event)
    (rc vc fc : Nat) (lim : Option Int) :
    attemptOnce (cfgC7 k R) [erB] ⟨ev, rc, vc, fc, m, lim⟩ =
      (⟨(ev ++ [.changesCall rowB none (.ok (.manyC [2]))]) ++
        [.bulk [2] (.ok [.conflict]), .tick 0], rc, vc, fc, m + 1, lim⟩, .ok [erB]) := by
  simp [attemptOnce, runChangesGo, cfgC7, baseCfg, erB, rowB, normChg, flat1, jsLen,
    unflatten, isConflict, hm]

/-- C7 scenario, one attempt on row B alone once the conflicts stop (bulk
call `m ≥ k`): the row succeeds, one success is ticked, retry set empty. -/
theorem c7_attempt_B_ok (k R m : Nat) (hm : ¬ m < k) (ev : List Event)
    (rc vc fc : Nat) (lim : Option Int) :
    attemptOnce (cfgC7 k R) [erB] ⟨ev, rc, vc, fc, m, lim⟩ =
      (⟨(ev ++ [.changesCall rowB none (.ok (.manyC [2]))]) ++
        [.bulk [2] (.ok [.ok]), .tick 1], rc + 1, vc, fc, m + 1, lim⟩, .ok []) := by
  simp [attemptOnce, runChangesGo, cfgC7, baseCfg, erB, rowB, normChg, flat1, jsLen,
    unflatten, isConflict, hm]

/-- The C7 retry loop on row B entered at retry = bulk call `m`
(`1 ≤ m ≤ k`, ceiling `R > k`, fuel `b = R - m`): each remaining conflicting
attempt ticks 0, the final attempt ticks 1, row B is never reported failed,
and exactly one success is added in total. -/
theorem c7_loopB (k R : Nat) (hkR : k < R) : ∀ (b m : Nat) (st : St), 1 ≤ m → m ≤ k →
    st.bulkCount = m → m + b = R →
    ∃ st', processBatchAux (cfgC7 k R) b [erB] m st = (st', none) ∧
      ticksOf st'.events = ticksOf st.events ++ (List.replicate (k - m) 0 ++ [1]) ∧
      failsOf st'.events = failsOf st.events ∧
      countBulk st'.events = countBulk st.events + (k - m + 1) ∧
      st'.realcurrent = st.realcurrent + 1 := by
  intro b
  induction b with
  | zero =>
    intro m st h1m hmk hbc hmR
    omega
  | succ b ih =>
    intro m st h1m hmk hbc hmR
    obtain ⟨ev, rc, vc, fc, bc, lim⟩ := st
    simp only at hbc
    rw [hbc]
    by_cases hm : m < k
    · simp only [processBatchAux, c7_attempt_B_conflict k R m hm]
      have hlt : ¬ ((m : Nat) : Int) ≥ (cfgC7 k R).retries := by
        show ¬ ((m : Int)) ≥ (R : Int)
        omega
      simp only [List.isEmpty_cons, Bool.false_eq_true, if_false, if_neg hlt]
      obtain ⟨st', hrun, ht, hf, hbk, hrc⟩ := ih (m + 1)
        ⟨(ev ++ [Event.changesCall rowB none (Res.ok (ChgRet.manyC [2]))]) ++
          [Event.bulk [2] (Res.ok [WriteRes.conflict]), Event.tick 0],
          rc, vc, fc, m + 1, lim⟩ (by omega) (by omega) rfl (by omega)
      refine ⟨st', hrun, ?_, ?_, ?_, ?_⟩
      · rw [ht]
        dsimp only
        rw [ticksOf_append, ticksOf_append]
        have hkm : k - m = (k - (m + 1)) + 1 := by omega
        rw [hkm, List.replicate_succ]
        simp [ticksOf]
      · rw [hf]
        dsimp only
        rw [failsOf_append, failsOf_append]
        simp [failsOf]
      · rw [hbk]
        dsimp only
        rw [countBulk_append, countBulk_append]
        have : countBulk [Event.bulk [2] (Res.ok [WriteRes.conflict]), Event.tick 0] = 1 := by
          simp [countBulk]
        rw [this]
        have : countBulk [Event.changesCall rowB none (Res.ok (ChgRet.manyC [2]))] = 0 := by
          simp [countBulk]
        rw [this]
        omega
      · rw [hrc]
    · simp only [processBatchAux, c7_attempt_B_ok k R m hm]
      simp only [List.isEmpty_nil, if_true]
      refine ⟨_, rfl, ?_, ?_, ?_, ?_⟩
      · dsimp only
        rw [ticksOf_append, ticksOf_append]
        have hkm : k - m = 0 := by omega
        rw [hkm]
        simp [ticksOf]
      · dsimp only
        rw [failsOf_append, failsOf_append]
        simp [failsOf]
      · dsimp only
        rw [countBulk_append, countBulk_append]
        have hkm : k - m = 0 := by omega
        rw [hkm]
        simp [countBulk]
      · rfl

/-- C7: in the two-row scenario where row B conflicts on attempts `1..k` and
succeeds on attempt `k+1` (with `k` below the retry ceiling `R`), the run
resolves without error after exactly `k + 1` bulk writes; the per-attempt
success reports are `1` (row A, original attempt), then `k - 1` zeros, then
`1` (row B) — so each of the two rows is reported as a success exactly once
(total success count 2), with no duplicate success and no failure report. -/
theorem conflict_retry_convergence (k R : Nat) (hk : 1 ≤ k) (hkR : k < R) :
    ∃ st', processBatch (cfgC7 k R) [erA, erB] 0 (st0 (cfgC7 k R)) = (st', none) ∧
      ticksOf st'.events = 1 :: (List.replicate (k - 1) 0 ++ [1]) ∧
      failsOf st'.events = [] ∧
      st'.realcurrent = 2 ∧
      countBulk st'.events = k + 1 := by
  obtain ⟨R', rfl⟩ : ∃ R', R = R' + 1 := ⟨R - 1, by omega⟩
  have hbudget : ((cfgC7 k (R' + 1)).retries - ((0 : Nat) : Int)).toNat = R' + 1 := by
    show ((((R' + 1 : Nat)) : Int) - ((0 : Nat) : Int)).toNat = R' + 1
    omega
  simp only [processBatch, hbudget]
  have hst0 : st0 (cfgC7 k (R' + 1)) =
      ⟨[], 0, 0, 0, 0, (cfgC7 k (R' + 1)).limit⟩ := rfl
  rw [hst0]
  simp only [processBatchAux, c7_attempt_AB k (R' + 1) (by omega) [] 0 0 0
    ((cfgC7 k (R' + 1)).limit)]
  have hlt : ¬ (((0 : Nat)) : Int) ≥ (cfgC7 k (R' + 1)).retries := by
    show ¬ ((0 : Int)) ≥ (((R' + 1 : Nat)) : Int)
    omega
  simp only [List.isEmpty_cons, Bool.false_eq_true, if_false, if_neg hlt]
  obtain ⟨st', hrun, ht, hf, hbk, hrc⟩ := c7_loopB k (R' + 1) hkR (R' : Nat) 1
    ⟨(([] ++ [Event.changesCall rowA none (Res.ok (ChgRet.manyC [1]))]) ++
        [Event.changesCall rowB none (Res.ok (ChgRet.manyC [2]))]) ++
      [Event.bulk [1, 2] (Res.ok [WriteRes.ok, WriteRes.conflict]), Event.tick 1],
      0 + 1, 0, 0, 1, (cfgC7 k (R' + 1)).limit⟩
    (by omega) hk rfl (by omega)
  refine ⟨st', hrun, ?_, ?_, ?_, ?_⟩
  · rw [ht]
    dsimp only
    rw [ticksOf_append, ticksOf_append, ticksOf_append]
    simp [ticksOf]
  · rw [hf]
    dsimp only
    rw [failsOf_append, failsOf_append, failsOf_append]
    simp [failsOf]
  · rw [hrc]
  · rw [hbk]
    dsimp only
    rw [countBulk_append, countBulk_append, countBulk_append]
    have e1 : countBulk ([] : List Event) = 0 := by simp [countBulk]
    have e2 : countBulk [Event.changesCall rowA none (Res.ok (ChgRet.manyC [1]))] = 0 := by
      simp [countBulk]
    have e3 : countBulk [Event.changesCall rowB none (Res.ok (ChgRet.manyC [2]))] = 0 := by
      simp [countBulk]
    have e4 : countBulk [Event.bulk [1, 2] (Res.ok [WriteRes.ok, WriteRes.conflict]),
        Event.tick 1] = 1 := by
      simp [countBulk]
    rw [e1, e2, e3, e4]
    omega

/-- Witness for C7 at `k = 1`, `R = 2`. -/
theorem conflict_retry_convergence_witness :
    ∃ st', processBatch (cfgC7 1 2) [erA, erB] 0 (st0 (cfgC7 1 2)) = (st', none) ∧
      ticksOf st'.events = 1 :: (List.replicate (1 - 1) 0 ++ [1]) ∧
      failsOf st'.events = [] ∧
      st'.realcurrent = 2 ∧
      countBulk st'.events = 1 + 1 :=
  conflict_retry_convergence 1 2 (by decide) (by decide)

/-- The filter loop keeps exactly the rows whose filter returned `true`,
and appends one `fail` report per throwing row, in row order. -/
theorem filterStep_spec (f : VRow → Res Bool) : ∀ (rows : List VRow) (ev : List Event),
    filterStep f rows ev =
      (rows.filter (keepRow f), ev ++ (rows.filter (filterThrew f)).map Event.fail) := by
  intro rows
  induction rows with
  | nil => intro ev; simp [filterStep]
  | cons r rs ih =>
    intro ev
    cases hf : f r with
    | ok b =>
      cases b with
      | true => simp [filterStep, hf, ih, List.filter_cons, keepRow, filterThrew]
      | false => simp [filterStep, hf, ih, List.filter_cons, keepRow, filterThrew]
    | er e => simp [filterStep, hf, ih, List.filter_cons, keepRow, filterThrew]

/-- C8: an error thrown by `sourceFilter` for a row is caught; exactly the
throwing rows are excluded, each is reported individually (one
`reportFailure`/`fail` event, in row order), and the page handler proceeds
as the rest of the page pipeline (`pageRest`) applied to exactly the
surviving rows — so a filter error never aborts the migration by itself,
which continues with the remaining rows of the page. -/
theorem sourceFilter_error_isolated (cfg : Config) (f : VRow → Res Bool)
    (hf : cfg.sourceFilter = some f) (pageRows : List VRow) (st : St) :
    filterStep f pageRows st.events =
      (pageRows.filter (keepRow f),
       st.events ++ (pageRows.filter (filterThrew f)).map Event.fail) ∧
    handlePage cfg pageRows st =
      pageRest cfg (pageRows.filter (keepRow f))
        {st with events := st.events ++ (pageRows.filter (filterThrew f)).map Event.fail} := by
  obtain ⟨ev, rc, vc, fc, bc, lim⟩ := st
  refine ⟨filterStep_spec f pageRows ev, ?_⟩
  simp only [handlePage, hf, filterStep_spec f pageRows ev]

/-- Witness for C8: a two-row page whose first row's filter throws. -/
theorem sourceFilter_error_isolated_witness :
    cfgC8.sourceFilter = some filtC8 ∧
    (filterStep filtC8 [rowA, rowB] (st0 cfgC8).events =
      ([rowA, rowB].filter (keepRow filtC8),
       (st0 cfgC8).events ++ ([rowA, rowB].filter (filterThrew filtC8)).map Event.fail) ∧
    handlePage cfgC8 [rowA, rowB] (st0 cfgC8) =
      pageRest cfgC8 ([rowA, rowB].filter (keepRow filtC8))
        {(st0 cfgC8) with
          events := (st0 cfgC8).events ++
            ([rowA, rowB].filter (filterThrew filtC8)).map Event.fail}) :=
  ⟨rfl, sourceFilter_error_isolated cfgC8 filtC8 rfl [rowA, rowB] (st0 cfgC8)⟩

/-- On a strictly key-sorted view, dropping rows with key below the head of
a suffix yields exactly that suffix: the couchdb `startkey` cursor set to a
lookahead row's key resumes precisely at that row. -/
theorem dropWhile_suffix_eq (view : List VRow) (r : VRow) (rest : List VRow)
    (hsort : List.Pairwise (fun a b => a.key < b.key) view)
    (hS : (r :: rest) <:+ view) :
    view.dropWhile (fun x => x.key < r.key) = r :: rest := by
  obtain ⟨t, ht⟩ := hS
  subst ht
  induction t with
  | nil => simp [List.dropWhile_cons]
  | cons a t ih =>
    have hak : a.key < r.key := by
      have h := (List.pairwise_cons.1 hsort).1
      exact h r (by simp)
    have hsort' := (List.pairwise_cons.1 hsort).2
    simp only [List.cons_append, List.dropWhile_cons]
    rw [if_pos (decide_eq_true hak)]
    exact ih hsort'

/-- `max 1 ⌈n/P⌉` for a final page (`n ≤ P`). -/
theorem pageCount_base (P n : Nat) (hP : 1 ≤ P) (hn : n ≤ P) :
    max 1 ((n + P - 1) / P) = 1 := by
  have h2 : (n + P - 1) / P < 2 := by
    rw [Nat.div_lt_iff_lt_mul (by omega)]
    omega
  omega

/-- `max 1 ⌈n/P⌉` of a scan that hands over `P` rows and recurses. -/
theorem pageCount_step (P n : Nat) (hP : 1 ≤ P) (hn : P < n) :
    max 1 ((n + P - 1) / P) = 1 + max 1 ((n - P + P - 1) / P) := by
  have e1 : n + P - 1 = (n - 1) + P := by omega
  have e2 : n - P + P - 1 = n - 1 := by omega
  have e3 : ((n - 1) + P) / P = (n - 1) / P + 1 := Nat.add_div_right _ (by omega)
  have e4 : 1 ≤ (n - 1) / P := (Nat.one_le_div_iff (by omega)).2 (by omega)
  rw [e1, e2, e3]
  omega

/-- Scanner loop invariant for C5: from a cursor whose suffix of the sorted
view is `S`, with enough fuel, the scan terminates cleanly, hands over pages
whose concatenation is exactly `S`, issues `max 1 ⌈|S|/P⌉` further view
queries, and requests `P + 1` rows on every one of them. -/
theorem scanC5_loop (view : List VRow) (P : Nat) (hP : 1 ≤ P)
    (hsort : List.Pairwise (fun a b => a.key < b.key) view) :
    ∀ (fuel : Nat) (S : List VRow) (qp : QP) (st : St),
    dbViewRaw view qp = S → S <:+ view → S.length + 1 ≤ fuel →
    ∃ st', getViewInBatches (cfgC5 view P) pageLogger fuel qp st = some (st', none) ∧
      ∃ pgs, pagesOf st'.events = pagesOf st.events ++ pgs ∧ pgs.flatten = S ∧
        countViewQ st'.events = countViewQ st.events + max 1 ((S.length + P - 1) / P) ∧
        viewLims st'.events = viewLims st.events ++
          List.replicate (max 1 ((S.length + P - 1) / P)) (P + 1) := by
  intro fuel
  induction fuel with
  | zero =>
    intro S qp st hraw hsuf hlen
    omega
  | succ f ih =>
    intro S qp st hraw hsuf hlen
    obtain ⟨ev, rc, vc, fc, bc, lim⟩ := st
    have hresp : (cfgC5 view P).viewResp vc qp (P + 1) =
        .ok (S.take (P + 1)) := by
      show Res.ok (dbView view qp (P + 1)) = Res.ok (S.take (P + 1))
      rw [dbView, hraw]
    have hps : (cfgC5 view P).pageSize = P := rfl
    simp only [getViewInBatches, hps]
    rw [hresp]
    simp only [pageLogger]
    have htk : (S.take (P + 1)).take P = S.take P := by
      rw [List.take_take]
      congr 1
      omega
    have hget : (S.take (P + 1))[P]? = S[P]? := List.getElem?_take_of_lt (by omega)
    rw [htk, hget]
    cases hS : S[P]? with
    | none =>
      have hSP : S.length ≤ P := List.getElem?_eq_none_iff.1 hS
      refine ⟨_, rfl, [S.take P], ?_, ?_, ?_, ?_⟩
      · dsimp only
        rw [pagesOf_append, pagesOf_append]
        simp [pagesOf]
      · simp [List.take_of_length_le hSP]
      · dsimp only
        rw [countViewQ_append, countViewQ_append]
        rw [pageCount_base P S.length hP hSP]
        simp [countViewQ]
      · dsimp only
        rw [viewLims_append, viewLims_append]
        rw [pageCount_base P S.length hP hSP]
        simp [viewLims]
    | some next =>
      have hPS : P < S.length := by
        by_contra h
        rw [List.getElem?_eq_none_iff.2 (by omega)] at hS
        cases hS
      have hdrop : S.drop P = next :: S.drop (P + 1) := by
        rw [List.getElem?_eq_getElem hPS] at hS
        rw [List.drop_eq_getElem_cons hPS, Option.some.inj hS]
      have hsuf' : S.drop P <:+ view := (List.drop_suffix P S).trans hsuf
      have hraw' : dbViewRaw view
          ⟨some next.key, if next.id.isSome then next.id else qp.startkey_docid⟩ =
          S.drop P := by
        show view.dropWhile (fun x => x.key < next.key) = S.drop P
        rw [hdrop]
        exact dropWhile_suffix_eq view next (S.drop (P + 1)) hsort (hdrop ▸ hsuf')
      obtain ⟨st', hrun, pgs, hpg, hfl, hvq, hvl⟩ := ih (S.drop P)
        ⟨some next.key, if next.id.isSome then next.id else qp.startkey_docid⟩
        ⟨(ev ++ [.viewQ qp (P + 1) (.ok (S.take (P + 1)))]) ++ [.page (S.take P)],
          rc, vc + 1, fc, bc, lim⟩
        hraw' hsuf' (by simp [List.length_drop]; omega)
      refine ⟨st', hrun, S.take P :: pgs, ?_, ?_, ?_, ?_⟩
      · rw [hpg]
        dsimp only
        rw [pagesOf_append, pagesOf_append]
        simp [pagesOf]
      · simp only [List.flatten_cons, hfl]
        exact List.take_append_drop P S
      · rw [hvq]
        dsimp only
        rw [countViewQ_append, countViewQ_append]
        have hstep := pageCount_step P S.length hP hPS
        rw [List.length_drop] at *
        rw [hstep]
        simp [countViewQ]
        omega
      · rw [hvl]
        dsimp only
        rw [viewLims_append, viewLims_append]
        have hstep := pageCount_step P S.length hP hPS
        rw [List.length_drop] at *
        rw [hstep, Nat.add_comm 1 (max 1 ((S.length - P + P - 1) / P)), List.replicate_succ]
        simp [viewLims]

/-- C5 (amended): for a strictly key-sorted view of `N` rows scanned with
page size `P ≥ 1` and enough fuel, the ViewScanner terminates cleanly (it
stops when no lookahead row exists), requests `P + 1` rows on every call
(the lookahead), issues exactly `max 1 ⌈N/P⌉` page requests — one request
even for an empty view — and hands every row to the consumer exactly once,
in view order (the concatenation of the handed pages is the view). -/
theorem viewScanner_pagination (view : List VRow) (P : Nat) (hP : 1 ≤ P)
    (hsort : List.Pairwise (fun a b => a.key < b.key) view)
    (fuel : Nat) (hfuel : view.length + 1 ≤ fuel) :
    ∃ st', getViewInBatches (cfgC5 view P) pageLogger fuel qp0 (st0 (cfgC5 view P)) =
        some (st', none) ∧
      (pagesOf st'.events).flatten = view ∧
      countViewQ st'.events = max 1 ((view.length + P - 1) / P) ∧
      viewLims st'.events = List.replicate (max 1 ((view.length + P - 1) / P)) (P + 1) := by
  obtain ⟨st', hrun, pgs, hpg, hfl, hvq, hvl⟩ := scanC5_loop view P hP hsort fuel view qp0
    (st0 (cfgC5 view P)) rfl List.suffix_rfl hfuel
  refine ⟨st', hrun, ?_, ?_, ?_⟩
  · rw [hpg]
    simp only [st0]
    simpa [pagesOf] using hfl
  · rw [hvq]
    simp [st0, countViewQ]
  · rw [hvl]
    simp [st0, viewLims]

/-- Witness for C5's amended theorem: a five-row view with page size 2 needs
3 = ⌈5/2⌉ requests. -/
theorem viewScanner_pagination_witness :
    ∃ st', getViewInBatches (cfgC5 view5 2) pageLogger 6 qp0 (st0 (cfgC5 view5 2)) =
        some (st', none) ∧
      (pagesOf st'.events).flatten = view5 ∧
      countViewQ st'.events = max 1 ((view5.length + 2 - 1) / 2) ∧
      viewLims st'.events = List.replicate (max 1 ((view5.length + 2 - 1) / 2)) (2 + 1) :=
  viewScanner_pagination view5 2 (by decide) (by decide) 6 (by decide)

theorem unflatten_nil_zeros (n : Nat) : ∀ i : Nat,
    unflatten ([] : List WriteRes) (List.replicate n (some 0)) (some i) =
      List.replicate n [] := by
  induction n with
  | zero => intro i; simp [unflatten]
  | succ m ih => intro i; simp [List.replicate_succ, unflatten, ih]

theorem zipFilter_conflictFree (batch : List ERow) :
    ((batch.zip (List.replicate batch.length ([] : List WriteRes))).filter
      (fun p => p.2.any isConflict)) = [] := by
  induction batch with
  | nil => simp
  | cons r rs ih => simpa [List.replicate_succ, List.filter_cons] using ih

theorem countFKC_ccMap (rows : List VRow) :
    countFKC (rows.map fun r => Event.changesCall r none (Res.ok ChgRet.noneC)) = 0 := by
  induction rows with
  | nil => simp [countFKC]
  | cons r rs ih => simp [countFKC, List.countP_cons, ih]

theorem countViewQ_ccMap (rows : List VRow) :
    countViewQ (rows.map fun r => Event.changesCall r none (Res.ok ChgRet.noneC)) = 0 := by
  induction rows with
  | nil => simp [countViewQ]
  | cons r rs ih => simp [countViewQ, List.countP_cons, ih]

theorem countViewQ_fkcMap (rows : List VRow) :
    countViewQ (rows.map fun r => Event.fetchKeysCall r (Res.ok KeysRet.noneK)) = 0 := by
  induction rows with
  | nil => simp [countViewQ]
  | cons r rs ih => simp [countViewQ, List.countP_cons, ih]

theorem countFKC_fkcMap (rows : List VRow) :
    countFKC (rows.map fun r => Event.fetchKeysCall r (Res.ok KeysRet.noneK)) =
      rows.length := by
  induction rows with
  | nil => simp [countFKC]
  | cons r rs ih => simp [countFKC, List.countP_cons, ih]

/-- With the trivial C4 transform, change generation answers `noneC` for
every row, recording one `changesCall` per row. -/
theorem runChangesGo_benignC4 (view : List VRow) (f : VRow → Bool) (P B : Nat) (L : Int) :
    ∀ (rows : List ERow) (i : Nat) (ev : List Event),
    runChangesGo (cfgC4 view f P B L) [] rows i ev =
      (ev ++ rows.map (fun r => Event.changesCall r.row none (Res.ok ChgRet.noneC)),
       Res.ok (List.replicate rows.length (JsChs.arr []))) := by
  intro rows
  induction rows with
  | nil => intro i ev; simp [runChangesGo]
  | cons r rs ih =>
    intro i ev
    have hch : (cfgC4 view f P B L).changes r.row ([] : List (List (Option Doc)))[i]? =
        Res.ok ChgRet.noneC := rfl
    simp only [runChangesGo, hch]
    rw [ih]
    simp [List.replicate_succ, show normChg ChgRet.noneC = JsChs.arr [] from rfl]

/-- With the trivial C4 transform, one attempt on a keyless sub-batch makes
no fetch, submits an empty bulk write, ticks every row as a success, and
leaves an empty retry set. -/
theorem attemptOnce_benignC4 (view : List VRow) (f : VRow → Bool) (P B : Nat) (L : Int)
    (batch : List ERow) (hb : ∀ r ∈ batch, r.extraKeys = [])
    (ev : List Event) (rc vc fc bc : Nat) (lim : Option Int) :
    attemptOnce (cfgC4 view f P B L) batch ⟨ev, rc, vc, fc, bc, lim⟩ =
      (⟨(ev ++ batch.map (fun r => Event.changesCall r.row none (Res.ok ChgRet.noneC))) ++
        [Event.bulk [] (Res.ok []), Event.tick batch.length],
        rc + batch.length, vc, fc, bc + 1, lim⟩, Res.ok []) := by
  have hk : (List.map (fun r => r.extraKeys) batch).flatten = [] :=
    List.flatten_eq_nil_iff.2 (by
      intro x hx
      obtain ⟨r, hr, rfl⟩ := List.mem_map.1 hx
      exact hb r hr)
  simp only [attemptOnce, hk, List.isEmpty_nil, if_true]
  rw [runChangesGo_benignC4]
  dsimp only
  have hcounts : (List.replicate batch.length (JsChs.arr [])).map jsLen =
      List.replicate batch.length (some 0) := by
    simp [List.map_replicate, jsLen]
  have hflat : ((List.replicate batch.length (JsChs.arr [])).map flat1).flatten =
      ([] : List Chg) := by
    simp [List.map_replicate, flat1]
  rw [hcounts, hflat]
  have hbulk : (cfgC4 view f P B L).bulkResp bc [] = Res.ok [] := rfl
  rw [hbulk]
  dsimp only
  rw [unflatten_nil_zeros, zipFilter_conflictFree]
  simp

/-- With the trivial C4 transform a keyless sub-batch resolves on its first
attempt: empty retry set, no failure, no error. -/
theorem processBatch_benignC4 (view : List VRow) (f : VRow → Bool) (P B : Nat) (L : Int)
    (batch : List ERow) (hb : ∀ r ∈ batch, r.extraKeys = [])
    (ev : List Event) (rc vc fc bc : Nat) (lim : Option Int) :
    processBatch (cfgC4 view f P B L) batch 0 ⟨ev, rc, vc, fc, bc, lim⟩ =
      (⟨(ev ++ batch.map (fun r => Event.changesCall r.row none (Res.ok ChgRet.noneC))) ++
        [Event.bulk [] (Res.ok []), Event.tick batch.length],
        rc + batch.length, vc, fc, bc + 1, lim⟩, none) := by
  have hbud : (((cfgC4 view f P B L).retries - ((0 : Nat) : Int)).toNat) = 2 := rfl
  simp only [processBatch, hbud]
  simp only [processBatchAux, attemptOnce_benignC4 view f P B L batch hb ev rc vc fc bc lim]
  simp

/-- With the trivial C4 transform, one whole sub-batch pass: every row gets
one `fetchKeys` call and one `changesCall`, one empty bulk write happens,
every row is ticked as a success, and neither the budget nor the error
status is touched. -/
theorem getExtraKeyInfo_benignC4 (view : List VRow) (f : VRow → Bool) (P B : Nat) (L : Int)
    (rows : List VRow) (ev : List Event) (rc vc fc bc : Nat) (lim : Option Int) :
    getExtraKeyInfo (cfgC4 view f P B L) rows ⟨ev, rc, vc, fc, bc, lim⟩ =
      (⟨((ev ++ rows.map (fun r => Event.fetchKeysCall r (Res.ok KeysRet.noneK))) ++
          rows.map (fun r => Event.changesCall r none (Res.ok ChgRet.noneC))) ++
        [Event.bulk [] (Res.ok []), Event.tick rows.length],
        rc + rows.length, vc, fc, bc + 1, lim⟩, none) := by
  have hfk : (cfgC4 view f P B L).fetchKeys = none := rfl
  simp only [getExtraKeyInfo, hfk]
  rw [fetchKeysGo_default]
  dsimp only
  rw [zipWith_noneK]
  rw [processBatch_benignC4 view f P B L (rows.map fun r => ⟨r, []⟩)
    (by intro r' hr'; obtain ⟨r, _, rfl⟩ := List.mem_map.1 hr'; rfl)]
  simp [List.map_map, Function.comp, List.length_map]

/-- `chunksGo` with enough fuel concatenates back to the original list. -/
theorem chunksGo_flatten (b : Nat) : ∀ (fuel : Nat) (l : List VRow), l.length ≤ fuel →
    (chunksGo b fuel l).flatten = l := by
  intro fuel
  induction fuel with
  | zero =>
    intro l hl
    cases l with
    | nil => simp [chunksGo]
    | cons x xs => simp at hl
  | succ fl ih =>
    intro l hl
    cases l with
    | nil => simp [chunksGo]
    | cons x xs =>
      simp only [chunksGo, List.flatten_cons]
      rw [ih ((x :: xs).drop (b + 1))
        (by simp only [List.length_drop, List.length_cons] at hl ⊢; omega)]
      exact List.take_append_drop (b + 1) (x :: xs)

/-- The sub-batch chunks of a page concatenate back to the page. -/
theorem chunksOf_flatten (b : Nat) (l : List VRow) : (chunksOf b l).flatten = l :=
  chunksGo_flatten b l.length l (le_refl _)

/-- Driving all sub-batches of a page with the trivial C4 transform: no
error, one `fetchKeys` call per row of the page, no view query, budget
untouched. -/
theorem processBatches_benignC4 (view : List VRow) (f : VRow → Bool) (P B : Nat) (L : Int) :
    ∀ (bs : List (List VRow)) (st : St),
    (processBatches (cfgC4 view f P B L) bs st).2 = none ∧
    countFKC (processBatches (cfgC4 view f P B L) bs st).1.events =
      countFKC st.events + (bs.map List.length).sum ∧
    countViewQ (processBatches (cfgC4 view f P B L) bs st).1.events =
      countViewQ st.events ∧
    (processBatches (cfgC4 view f P B L) bs st).1.limit = st.limit := by
  intro bs
  induction bs with
  | nil => intro st; simp [processBatches]
  | cons b bs ih =>
    intro st
    obtain ⟨ev, rc, vc, fc, bc, lim⟩ := st
    simp only [processBatches, getExtraKeyInfo_benignC4]
    obtain ⟨ih1, ih2, ih3, ih4⟩ := ih
      ⟨((ev ++ b.map (fun r => Event.fetchKeysCall r (Res.ok KeysRet.noneK))) ++
          b.map (fun r => Event.changesCall r none (Res.ok ChgRet.noneC))) ++
        [Event.bulk [] (Res.ok []), Event.tick b.length],
        rc + b.length, vc, fc, bc + 1, lim⟩
    refine ⟨ih1, ?_, ?_, ih4⟩
    · rw [ih2]
      dsimp only
      rw [countFKC_append, countFKC_append, countFKC_append, countFKC_fkcMap, countFKC_ccMap]
      have : countFKC [Event.bulk [] (Res.ok []), Event.tick b.length] = 0 := by
        simp [countFKC]
      rw [this]
      simp [List.sum_cons]
      omega
    · rw [ih3]
      dsimp only
      rw [countViewQ_append, countViewQ_append, countViewQ_append, countViewQ_fkcMap,
        countViewQ_ccMap]
      have : countViewQ [Event.bulk [] (Res.ok []), Event.tick b.length] = 0 := by
        simp [countViewQ]
      rw [this]
      omega

/-- A filter callback that never throws keeps exactly the rows it accepts. -/
theorem keepRow_pure (f : VRow → Bool) : keepRow (fun r => Res.ok (f r)) = f := by
  funext r
  cases hfr : f r <;> simp [keepRow, hfr]

/-- A filter callback that never throws reports no row. -/
theorem filterThrew_pure (f : VRow → Bool) :
    filterThrew (fun r => Res.ok (f r)) = fun _ => false := rfl

/-- The sub-batch chunks of a page have total length the page's length. -/
theorem chunksOf_sumLen (b : Nat) (l : List VRow) :
    ((chunksOf b l).map List.length).sum = l.length := by
  conv_rhs => rw [← chunksOf_flatten b l]
  exact (List.length_flatten _).symm

/-- One benign C4 page step, with remaining budget `l ≥ 1`: the handler
never errors, pushes `min (filtered count) l` rows through the pipeline (one
`fetchKeys` call each), issues no view query itself, leaves the budget at
`l - min (filtered count) l`, and asks for the next page exactly when that
new budget is still positive. -/
theorem handlePage_benignC4 (view : List VRow) (f : VRow → Bool) (P B : Nat) (L : Int)
    (pageRows : List VRow) (l : Nat) (hl : 1 ≤ l)
    (ev : List Event) (rc vc fc bc : Nat) :
    ∃ st', handlePage (cfgC4 view f P B L) pageRows ⟨ev, rc, vc, fc, bc, some (l : Int)⟩ =
      (st', decide (0 < l - min (pageRows.filter f).length l), none) ∧
      countFKC st'.events = countFKC ev + min (pageRows.filter f).length l ∧
      countViewQ st'.events = countViewQ ev ∧
      st'.limit = some ((l - min (pageRows.filter f).length l : Nat) : Int) := by
  have hsf : (cfgC4 view f P B L).sourceFilter = some (fun r => Res.ok (f r)) := rfl
  simp only [handlePage, hsf]
  rw [filterStep_spec, keepRow_pure, filterThrew_pure]
  simp only [List.filter_false, List.map_nil, List.append_nil]
  simp only [pageRest]
  by_cases hkl : ((l : Int)) - ((pageRows.filter f).length : Int) < 0
  · -- the page overruns the budget: truncate to the remaining l rows
    rw [if_pos hkl]
    have hlk : l < (pageRows.filter f).length := by omega
    have he : ((((pageRows.filter f).length : Int)) +
        ((l : Int) - ((pageRows.filter f).length : Int))) = (l : Int) := by omega
    rw [he]
    have hslice : jsSlice0 (pageRows.filter f) (l : Int) = (pageRows.filter f).take l := by
      rw [jsSlice0, if_neg (by omega)]
      simp
    rw [hslice]
    have hlen : ((pageRows.filter f).take l).length = l := by
      rw [List.length_take]
      omega
    have hne : ¬ (((pageRows.filter f).take l).isEmpty = true) := by
      intro h
      rw [List.isEmpty_iff] at h
      have := congrArg List.length h
      rw [hlen] at this
      simp at this
      omega
    dsimp only
    rw [if_neg hne]
    obtain ⟨hpb1, hpb2, hpb3, hpb4⟩ := processBatches_benignC4 view f P B L
      (chunksOf ((cfgC4 view f P B L).batchSize - 1) ((pageRows.filter f).take l))
      ⟨ev, rc, vc, fc, bc, some 0⟩
    cases hPB : processBatches (cfgC4 view f P B L)
        (chunksOf ((cfgC4 view f P B L).batchSize - 1) ((pageRows.filter f).take l))
        ⟨ev, rc, vc, fc, bc, some 0⟩ with
    | mk st2 r2 =>
      rw [hPB] at hpb1 hpb2 hpb3 hpb4
      dsimp only at hpb1 hpb2 hpb3 hpb4
      subst hpb1
      have hmin : ((pageRows.filter f).length) ⊓ l = l := by omega
      refine ⟨st2, ?_, ?_, ?_, ?_⟩
      · dsimp only
        rw [hmin, Nat.sub_self]
        simp
      · rw [hpb2, chunksOf_sumLen, hlen, hmin]
      · rw [hpb3]
      · rw [hpb4, hmin, Nat.sub_self]
        rfl
  · -- the whole filtered page fits in the budget
    rw [if_neg hkl]
    have hkle : (pageRows.filter f).length ≤ l := by omega
    have hmin : ((pageRows.filter f).length) ⊓ l = (pageRows.filter f).length :=
      min_eq_left hkle
    cases hkept : pageRows.filter f with
    | nil =>
      dsimp only
      rw [if_pos (show (([] : List VRow)).isEmpty = true from rfl)]
      refine ⟨⟨ev, rc, vc, fc, bc, some ((l : Int) - ((([] : List VRow)).length : Int))⟩,
        ?_, ?_, rfl, ?_⟩
      · have h1 : (([] : List VRow)).length ⊓ l = 0 := by simp
        rw [h1, Nat.sub_zero, decide_eq_true (show 0 < l by omega)]
      · simp
      · simp
    | cons x xs =>
      have hne : ¬ ((((x :: xs) : List VRow)).isEmpty = true) := by simp
      dsimp only
      rw [if_neg hne]
      obtain ⟨hpb1, hpb2, hpb3, hpb4⟩ := processBatches_benignC4 view f P B L
        (chunksOf ((cfgC4 view f P B L).batchSize - 1) (x :: xs))
        ⟨ev, rc, vc, fc, bc, some ((l : Int) - (((x :: xs) : List VRow).length : Int))⟩
      cases hPB : processBatches (cfgC4 view f P B L)
          (chunksOf ((cfgC4 view f P B L).batchSize - 1) (x :: xs))
          ⟨ev, rc, vc, fc, bc, some ((l : Int) - (((x :: xs) : List VRow).length : Int))⟩ with
      | mk st2 r2 =>
        rw [hPB] at hpb1 hpb2 hpb3 hpb4
        dsimp only at hpb1 hpb2 hpb3 hpb4
        subst hpb1
        rw [hkept] at hmin
        refine ⟨st2, ?_, ?_, ?_, ?_⟩
        · dsimp only
          rw [hmin]
          by_cases hz : (l : Int) - ((((x :: xs) : List VRow)).length : Int) = 0
          · have hz2 : l - (((x :: xs) : List VRow)).length = 0 := by omega
            rw [hz, hz2]
            simp
          · have hz2 : 0 < l - (((x :: xs) : List VRow)).length := by omega
            rw [decide_eq_true hz2, decide_eq_false (fun hc => hz (Option.some.inj hc))]
            rfl
        · rw [hpb2, chunksOf_sumLen, hmin]
        · rw [hpb3]
        · rw [hpb4, hmin]
          congr 1
          omega
/-- Scanner loop invariant for C4: from a cursor whose suffix of the sorted
view is `S`, with remaining budget `l` satisfying `1 ≤ l` and fewer than `l`
filtered rows still ahead... rather: `l` strictly below the number of
filtered rows in `S`, the scan terminates cleanly without an error, exactly
`l` rows enter the sub-batch pipeline (one `fetchKeysCall` each), and the
scan issues `q ≥ 1` further page requests where the first `q - 1` pages hold
fewer than `l` filtered rows and the first `q` pages hold at least `l`: the
final page is truncated, not dropped, and scanning stops there. -/
theorem scanC4_loop (view : List VRow) (f : VRow → Bool) (P B : Nat) (L : Int)
    (hP : 1 ≤ P) (hsort : List.Pairwise (fun a b => a.key < b.key) view) :
    ∀ (fuel : Nat) (S : List VRow) (qp : QP) (st : St) (l : Nat),
    dbViewRaw view qp = S → S <:+ view → S.length + 1 ≤ fuel →
    st.limit = some (l : Int) → 1 ≤ l → l < S.countP f →
    ∃ st', getViewInBatches (cfgC4 view f P B L) (handlePage (cfgC4 view f P B L))
        fuel qp st = some (st', none) ∧
      countFKC st'.events = countFKC st.events + l ∧
      ∃ q, 1 ≤ q ∧ countViewQ st'.events = countViewQ st.events + q ∧
        l ≤ (S.take (q * P)).countP f ∧ (S.take ((q - 1) * P)).countP f < l := by
  intro fuel
  induction fuel with
  | zero =>
    intro S qp st l hraw hsuf hlen hlim hl hN
    omega
  | succ fl ih =>
    intro S qp st l hraw hsuf hlen hlim hl hN
    obtain ⟨ev, rc, vc, fc, bc, lim⟩ := st
    dsimp only at hlim
    subst hlim
    have hresp : (cfgC4 view f P B L).viewResp vc qp (P + 1) =
        .ok (S.take (P + 1)) := by
      show Res.ok (dbView view qp (P + 1)) = Res.ok (S.take (P + 1))
      rw [dbView, hraw]
    have hps : (cfgC4 view f P B L).pageSize = P := rfl
    simp only [getViewInBatches, hps]
    rw [hresp]
    dsimp only
    have htk : (S.take (P + 1)).take P = S.take P := by
      rw [List.take_take]
      congr 1
      omega
    have hget : (S.take (P + 1))[P]? = S[P]? := List.getElem?_take_of_lt (by omega)
    rw [htk, hget]
    obtain ⟨st1, hrun1, hfkc1, hvq1, hlim1⟩ := handlePage_benignC4 view f P B L
      (S.take P) l hl (ev ++ [.viewQ qp (P + 1) (.ok (S.take (P + 1)))]) rc (vc + 1) fc bc
    rw [hrun1]
    have hkc : List.countP f (S.take P) = ((S.take P).filter f).length :=
      List.countP_eq_length_filter _ _
    by_cases hlk : l ≤ ((S.take P).filter f).length
    · -- this page already exhausts the budget: it is truncated and the scan stops
      have hmin : min ((S.take P).filter f).length l = l := min_eq_right hlk
      rw [hmin, Nat.sub_self]
      dsimp only
      rw [if_neg (by decide : ¬ (decide (0 < 0) = true))]
      refine ⟨st1, rfl, ?_, 1, le_refl 1, ?_, ?_, ?_⟩
      · rw [hfkc1, hmin, countFKC_append]
        have h0 : countFKC [Event.viewQ qp (P + 1) (.ok (S.take (P + 1)))] = 0 := rfl
        rw [h0]
        omega
      · rw [hvq1, countViewQ_append]
        have h1 : countViewQ [Event.viewQ qp (P + 1) (.ok (S.take (P + 1)))] = 1 := rfl
        rw [h1]
      · rw [Nat.one_mul, hkc]
        exact hlk
      · simp only [Nat.sub_self, Nat.zero_mul, List.take_zero, List.countP_nil]
        omega
    · -- budget survives this page: recurse on the lookahead cursor
      have hk : ((S.take P).filter f).length < l := by omega
      have hmin : min ((S.take P).filter f).length l = ((S.take P).filter f).length :=
        min_eq_left (by omega)
      rw [hmin]
      dsimp only
      have hc : decide (0 < l - ((S.take P).filter f).length) = true :=
        decide_eq_true (by omega)
      rw [if_pos hc]
      have hPS : P < S.length := by
        by_contra h
        push_neg at h
        rw [List.take_of_length_le h] at hk
        rw [List.countP_eq_length_filter] at hN
        omega
      cases hS : S[P]? with
      | none =>
        exfalso
        have := List.getElem?_eq_none_iff.1 hS
        omega
      | some next =>
        have hdrop : S.drop P = next :: S.drop (P + 1) := by
          rw [List.getElem?_eq_getElem hPS] at hS
          rw [List.drop_eq_getElem_cons hPS, Option.some.inj hS]
        have hsuf' : S.drop P <:+ view := (List.drop_suffix P S).trans hsuf
        have hraw' : dbViewRaw view
            ⟨some next.key, if next.id.isSome then next.id else qp.startkey_docid⟩ =
            S.drop P := by
          show view.dropWhile (fun x => x.key < next.key) = S.drop P
          rw [hdrop]
          exact dropWhile_suffix_eq view next (S.drop (P + 1)) hsort (hdrop ▸ hsuf')
        have hsplit : List.countP f (S.take P) + List.countP f (S.drop P) =
            List.countP f S := by
          rw [← List.countP_append]
          rw [List.take_append_drop]
        obtain ⟨st'', hrun'', hfkc'', q', hq'1, hvq'', hle'', hlt''⟩ := ih (S.drop P)
          ⟨some next.key, if next.id.isSome then next.id else qp.startkey_docid⟩
          st1 (l - ((S.take P).filter f).length)
          hraw' hsuf' (by rw [List.length_drop]; omega)
          (by rw [hlim1, hmin]) (by omega)
          (by omega)
        obtain ⟨q'', rfl⟩ : ∃ t, q' = t + 1 := ⟨q' - 1, by omega⟩
        refine ⟨st'', hrun'', ?_, q'' + 2, by omega, ?_, ?_, ?_⟩
        · rw [hfkc'', hfkc1, hmin, countFKC_append]
          have h0 : countFKC [Event.viewQ qp (P + 1) (.ok (S.take (P + 1)))] = 0 := rfl
          rw [h0]
          omega
        · rw [hvq'', hvq1, countViewQ_append]
          have h1 : countViewQ [Event.viewQ qp (P + 1) (.ok (S.take (P + 1)))] = 1 := rfl
          rw [h1]
          omega
        · have em : (q'' + 2) * P = P + (q'' + 1) * P := by ring
          rw [em, List.take_add, List.countP_append]
          omega
        · have e2 : q'' + 2 - 1 = q'' + 1 := rfl
          rw [e2]
          have em : (q'' + 1) * P = P + q'' * P := by ring
          rw [em, List.take_add, List.countP_append]
          have e3 : q'' + 1 - 1 = q'' := rfl
          rw [e3] at hlt''
          omega

/-- C4 (amended to budgets `L ≥ 1`; `limit = 0` is the counterexample's
subject): for a strictly key-sorted view scanned with page size `P ≥ 1`, a
pure row filter `f`, and a configured row budget `1 ≤ L` strictly below the
number `N` of filtered view rows, the migration terminates cleanly and the
total number of rows passed into the sub-batch pipeline across all pages
(one `fetchKeysCall` per row) is exactly `L`; the scan issues some `q ≥ 1`
page requests where the first `q - 1` pages contain fewer than `L` filtered
rows and the first `q` contain at least `L` — the budget-exhausting page is
truncated to exactly exhaust the budget, not dropped, and scanning stops
after it even though more filtered rows exist. -/
theorem budget_truncation (view : List VRow) (f : VRow → Bool) (P B : Nat)
    (L : Nat) (hP : 1 ≤ P)
    (hsort : List.Pairwise (fun a b => a.key < b.key) view)
    (hL : 1 ≤ L) (hN : L < view.countP f)
    (fuel : Nat) (hfuel : view.length + 1 ≤ fuel) :
    ∃ st', runMigration (cfgC4 view f P B (L : Int)) fuel = some (st', none) ∧
      countFKC st'.events = L ∧
      ∃ q, 1 ≤ q ∧ countViewQ st'.events = q ∧
        L ≤ (view.take (q * P)).countP f ∧ (view.take ((q - 1) * P)).countP f < L := by
  obtain ⟨st', hrun, hfkc, q, hq1, hvq, hle, hlt⟩ :=
    scanC4_loop view f P B (L : Int) hP hsort fuel view qp0
      (st0 (cfgC4 view f P B (L : Int))) L rfl List.suffix_rfl hfuel rfl hL hN
  refine ⟨st', hrun, ?_, q, hq1, ?_, hle, hlt⟩
  · rw [hfkc]
    simp [st0, countFKC]
  · rw [hvq]
    simp [st0, countViewQ]

/-- Witness for C4's amended theorem: a five-row view, all rows passing the
filter, page size 2, budget 3: the run stops after the second page (4 rows
seen, the second page truncated to one row) with exactly 3 rows piped. -/
theorem budget_truncation_witness :
    ∃ st', runMigration (cfgC4 view5 (fun _ => true) 2 20 ((3 : Nat) : Int)) 6 =
        some (st', none) ∧
      countFKC st'.events = 3 ∧
      ∃ q, 1 ≤ q ∧ countViewQ st'.events = q ∧
        3 ≤ (view5.take (q * 2)).countP (fun _ => true) ∧
        (view5.take ((q - 1) * 2)).countP (fun _ => true) < 3 :=
  budget_truncation view5 (fun _ => true) 2 20 3 (by decide) (by decide)
    (by decide) (by decide) 6 (by decide)

/-! ### C6: trace decomposition of a finished run -/

theorem cleanEvents_nil : cleanEvents [] := by
  intro e he
  cases he

theorem cleanEvents_append (a b : List Event) (ha : cleanEvents a) (hb : cleanEvents b) :
    cleanEvents (a ++ b) := by
  intro e he
  rcases List.mem_append.1 he with h | h
  · exact ha e h
  · exact hb e h

theorem cleanEvents_cons (e0 : Event) (b : List Event)
    (he : eventErr e0 = none) (hb : cleanEvents b) : cleanEvents (e0 :: b) := by
  intro e he'
  rcases List.mem_cons.1 he' with h | h
  · rw [h]
    exact he
  · exact hb e h

/-- A clean prefix preserves a trace decomposition. -/
theorem decomp_append_clean (d1 d2 : List Event) (r : Option Err)
    (h1 : cleanEvents d1) (h2 : Decomp d2 r) : Decomp (d1 ++ d2) r := by
  cases r with
  | none => exact cleanEvents_append d1 d2 h1 h2
  | some e =>
    obtain ⟨a, elast, heq, hcl, herr⟩ := h2
    exact ⟨d1 ++ a, elast, by rw [heq, List.append_assoc],
      cleanEvents_append d1 a h1 hcl, herr⟩

theorem decomp_single_er (e0 : Event) (e : Err) (h : eventErr e0 = some e) :
    Decomp [e0] (some e) :=
  ⟨[], e0, rfl, cleanEvents_nil, h⟩

/-- The change-generation loop appends a trace that decomposes along its
outcome: clean on success, clean-then-failing-call on the first error. -/
theorem runChangesGo_decomp (cfg : Config) (docs : List (List (Option Doc))) :
    ∀ (rs : List ERow) (i : Nat) (ev : List Event),
    ∃ d r, runChangesGo cfg docs rs i ev = (ev ++ d, r) ∧ Decomp d (resErr r) := by
  intro rs
  induction rs with
  | nil =>
    intro i ev
    exact ⟨[], .ok [], by simp [runChangesGo], cleanEvents_nil⟩
  | cons r rs ih =>
    intro i ev
    cases hc : cfg.changes r.row docs[i]? with
    | er e =>
      refine ⟨[.changesCall r.row docs[i]? (.er e)], .er e, ?_, ?_⟩
      · simp only [runChangesGo, hc]
      · exact decomp_single_er _ e rfl
    | ok cr =>
      obtain ⟨d1, r1, heq1, hd1⟩ := ih (i + 1) (ev ++ [.changesCall r.row docs[i]? (.ok cr)])
      cases r1 with
      | er e =>
        refine ⟨.changesCall r.row docs[i]? (.ok cr) :: d1, .er e, ?_, ?_⟩
        · simp only [runChangesGo, hc, heq1]
          rw [List.append_assoc]
          rfl
        · exact decomp_append_clean [_] d1 _ (cleanEvents_cons _ [] rfl cleanEvents_nil) hd1
      | ok rest =>
        refine ⟨.changesCall r.row docs[i]? (.ok cr) :: d1, .ok (normChg cr :: rest), ?_, ?_⟩
        · simp only [runChangesGo, hc, heq1]
          rw [List.append_assoc]
          rfl
        · exact decomp_append_clean [_] d1 _ (cleanEvents_cons _ [] rfl cleanEvents_nil) hd1

/-- The `fetchKeys` mapSeries loop appends a trace that decomposes along its
outcome. -/
theorem fetchKeysGo_decomp (fk : VRow → Res KeysRet) :
    ∀ (rs : List VRow) (ev : List Event),
    ∃ d r, fetchKeysGo fk rs ev = (ev ++ d, r) ∧ Decomp d (resErr r) := by
  intro rs
  induction rs with
  | nil =>
    intro ev
    exact ⟨[], .ok [], by simp [fetchKeysGo], cleanEvents_nil⟩
  | cons r rs ih =>
    intro ev
    cases hc : fk r with
    | er e =>
      refine ⟨[.fetchKeysCall r (.er e)], .er e, ?_, ?_⟩
      · simp only [fetchKeysGo, hc]
      · exact decomp_single_er _ e rfl
    | ok kr =>
      obtain ⟨d1, r1, heq1, hd1⟩ := ih (ev ++ [.fetchKeysCall r (.ok kr)])
      cases r1 with
      | er e =>
        refine ⟨.fetchKeysCall r (.ok kr) :: d1, .er e, ?_, ?_⟩
        · simp only [fetchKeysGo, hc, heq1]
          rw [List.append_assoc]
          rfl
        · exact decomp_append_clean [_] d1 _ (cleanEvents_cons _ [] rfl cleanEvents_nil) hd1
      | ok ks =>
        refine ⟨.fetchKeysCall r (.ok kr) :: d1, .ok (kr :: ks), ?_, ?_⟩
        · simp only [fetchKeysGo, hc, heq1]
          rw [List.append_assoc]
          rfl
        · exact decomp_append_clean [_] d1 _ (cleanEvents_cons _ [] rfl cleanEvents_nil) hd1

/-- One `processBatch` attempt appends a trace that decomposes along its
outcome: the enrichment fetch, the changes calls, the bulk write and the
progress tick in order, stopping at the first error. -/
theorem attemptOnce_decomp (cfg : Config) (batch : List ERow) (st : St) :
    ∃ d, (attemptOnce cfg batch st).1.events = st.events ++ d ∧
      Decomp d (resErr (attemptOnce cfg batch st).2) := by
  obtain ⟨ev, rc, vc, fc, bc, lim⟩ := st
  simp only [attemptOnce]
  by_cases hak : ((batch.map (fun r => r.extraKeys)).flatten).isEmpty
  · rw [if_pos hak]
    dsimp only
    obtain ⟨d1, r1, heq1, hd1⟩ := runChangesGo_decomp cfg [] batch 0 ev
    rw [heq1]
    cases r1 with
    | er e => exact ⟨d1, rfl, hd1⟩
    | ok jsChs =>
      dsimp only
      cases hb : cfg.bulkResp bc ((jsChs.map flat1).flatten) with
      | er e =>
        dsimp only
        refine ⟨d1 ++ [.bulk ((jsChs.map flat1).flatten) (.er e)], ?_, ?_⟩
        · rw [List.append_assoc]
        · exact decomp_append_clean d1 _ _ hd1 (decomp_single_er _ e rfl)
      | ok results =>
        dsimp only
        refine ⟨d1 ++ [.bulk ((jsChs.map flat1).flatten) (.ok results),
          .tick (batch.length - (((batch.zip (unflatten results (jsChs.map jsLen) (some 0))).filter
            (fun p => p.2.any isConflict)).map (fun p => p.1)).length)], ?_, ?_⟩
        · rw [List.append_assoc]
        · exact decomp_append_clean d1 _ _ hd1
            (cleanEvents_cons _ _ rfl (cleanEvents_cons _ [] rfl cleanEvents_nil))
  · rw [if_neg hak]
    cases hf : cfg.fetchResp fc ((batch.map (fun r => r.extraKeys)).flatten) with
    | er e =>
      dsimp only
      exact ⟨[.fetch ((batch.map (fun r => r.extraKeys)).flatten) (.er e)], rfl,
        decomp_single_er _ e rfl⟩
    | ok docs =>
      dsimp only
      obtain ⟨d1, r1, heq1, hd1⟩ := runChangesGo_decomp cfg
        (unflatten docs ((batch.map (fun r => r.extraKeys)).map (fun l => some l.length)) (some 0))
        batch 0 (ev ++ [.fetch ((batch.map (fun r => r.extraKeys)).flatten) (.ok docs)])
      rw [heq1]
      cases r1 with
      | er e =>
        refine ⟨.fetch ((batch.map (fun r => r.extraKeys)).flatten) (.ok docs) :: d1, ?_, ?_⟩
        · dsimp only
          rw [List.append_assoc]
          rfl
        · exact decomp_append_clean [_] d1 _ (cleanEvents_cons _ [] rfl cleanEvents_nil) hd1
      | ok jsChs =>
        dsimp only
        cases hb : cfg.bulkResp bc ((jsChs.map flat1).flatten) with
        | er e =>
          dsimp only
          refine ⟨(.fetch ((batch.map (fun r => r.extraKeys)).flatten) (.ok docs) :: d1) ++
            [.bulk ((jsChs.map flat1).flatten) (.er e)], ?_, ?_⟩
          · rw [List.append_assoc, List.append_assoc]
            rfl
          · exact decomp_append_clean _ _ _
              (cleanEvents_append [_] d1 (cleanEvents_cons _ [] rfl cleanEvents_nil) hd1)
              (decomp_single_er _ e rfl)
        | ok results =>
          dsimp only
          refine ⟨(.fetch ((batch.map (fun r => r.extraKeys)).flatten) (.ok docs) :: d1) ++
            [.bulk ((jsChs.map flat1).flatten) (.ok results),
             .tick (batch.length - (((batch.zip (unflatten results (jsChs.map jsLen) (some 0))).filter
               (fun p => p.2.any isConflict)).map (fun p => p.1)).length)], ?_, ?_⟩
          · rw [List.append_assoc, List.append_assoc]
            rfl
          · exact decomp_append_clean _ _ _
              (cleanEvents_append [_] d1 (cleanEvents_cons _ [] rfl cleanEvents_nil) hd1)
              (cleanEvents_cons _ _ rfl (cleanEvents_cons _ [] rfl cleanEvents_nil))

/-- The retry loop appends a trace that decomposes along its outcome; the
permanent-failure reports at the ceiling are clean events. -/
theorem processBatchAux_decomp (cfg : Config) :
    ∀ (b : Nat) (batch : List ERow) (retry : Nat) (st : St),
    ∃ d, (processBatchAux cfg b batch retry st).1.events = st.events ++ d ∧
      Decomp d (processBatchAux cfg b batch retry st).2 := by
  intro b
  induction b with
  | zero =>
    intro batch retry st
    obtain ⟨da, ha, hd⟩ := attemptOnce_decomp cfg batch st
    cases hA : attemptOnce cfg batch st with
    | mk st1 r1 =>
      rw [hA] at ha hd
      dsimp only at ha hd
      cases r1 with
      | er e =>
        simp only [processBatchAux, hA]
        exact ⟨da, ha, hd⟩
      | ok newBatch =>
        by_cases hnb : newBatch.isEmpty
        · simp only [processBatchAux, hA]
          rw [if_pos hnb]
          exact ⟨da, ha, hd⟩
        · by_cases hrt : (retry : Int) ≥ cfg.retries
          · obtain ⟨ev1, rc1, vc1, fc1, bc1, lim1⟩ := st1
            simp only [processBatchAux, hA]
            rw [if_neg hnb, if_pos hrt]
            dsimp only at ha ⊢
            refine ⟨da ++ newBatch.map (fun r => .fail r.row), ?_, ?_⟩
            · rw [ha, List.append_assoc]
            · refine cleanEvents_append da _ hd ?_
              intro e he
              obtain ⟨r, _, hr⟩ := List.mem_map.1 he
              rw [← hr]
              rfl
          · simp only [processBatchAux, hA]
            rw [if_neg hnb, if_neg hrt]
            exact ⟨da, ha, hd⟩
  | succ b ih =>
    intro batch retry st
    obtain ⟨da, ha, hd⟩ := attemptOnce_decomp cfg batch st
    cases hA : attemptOnce cfg batch st with
    | mk st1 r1 =>
      rw [hA] at ha hd
      dsimp only at ha hd
      cases r1 with
      | er e =>
        simp only [processBatchAux, hA]
        exact ⟨da, ha, hd⟩
      | ok newBatch =>
        by_cases hnb : newBatch.isEmpty
        · simp only [processBatchAux, hA]
          rw [if_pos hnb]
          exact ⟨da, ha, hd⟩
        · by_cases hrt : (retry : Int) ≥ cfg.retries
          · obtain ⟨ev1, rc1, vc1, fc1, bc1, lim1⟩ := st1
            simp only [processBatchAux, hA]
            rw [if_neg hnb, if_pos hrt]
            dsimp only at ha ⊢
            refine ⟨da ++ newBatch.map (fun r => .fail r.row), ?_, ?_⟩
            · rw [ha, List.append_assoc]
            · refine cleanEvents_append da _ hd ?_
              intro e he
              obtain ⟨r, _, hr⟩ := List.mem_map.1 he
              rw [← hr]
              rfl
          · obtain ⟨db, hb, hdb⟩ := ih newBatch (retry + 1) st1
            simp only [processBatchAux, hA]
            rw [if_neg hnb, if_neg hrt]
            refine ⟨da ++ db, ?_, ?_⟩
            · rw [hb, ha, List.append_assoc]
            · exact decomp_append_clean da db _ hd hdb

/-- `processBatch` appends a trace that decomposes along its outcome. -/
theorem processBatch_decomp (cfg : Config) (batch : List ERow) (retry : Nat) (st : St) :
    ∃ d, (processBatch cfg batch retry st).1.events = st.events ++ d ∧
      Decomp d (processBatch cfg batch retry st).2 :=
  processBatchAux_decomp cfg ((cfg.retries - (retry : Int)).toNat) batch retry st

/-- `getExtraKeyInfo` (one sub-batch, fetchKeys phase plus the retrying
`processBatch`) appends a trace that decomposes along its outcome. -/
theorem getExtraKeyInfo_decomp (cfg : Config) (batch : List VRow) (st : St) :
    ∃ d, (getExtraKeyInfo cfg batch st).1.events = st.events ++ d ∧
      Decomp d (getExtraKeyInfo cfg batch st).2 := by
  obtain ⟨ev, rc, vc, fc, bc, lim⟩ := st
  simp only [getExtraKeyInfo]
  obtain ⟨d1, r1, heq1, hd1⟩ := fetchKeysGo_decomp
    (match cfg.fetchKeys with
     | some f => f
     | none => fun _ => .ok .noneK) batch ev
  rw [heq1]
  cases r1 with
  | er e => exact ⟨d1, rfl, hd1⟩
  | ok keysByRow =>
    dsimp only
    obtain ⟨d2, h2, hd2⟩ := processBatch_decomp cfg
      (batch.zipWith (fun r kr => ⟨r, normKeys kr⟩) keysByRow) 0
      ⟨ev ++ d1, rc, vc, fc, bc, lim⟩
    dsimp only at h2
    refine ⟨d1 ++ d2, ?_, ?_⟩
    · rw [h2, List.append_assoc]
    · exact decomp_append_clean d1 d2 _ hd1 hd2

/-- The sub-batch loop of one page appends a trace that decomposes along its
outcome: an error in one sub-batch stops the loop. -/
theorem processBatches_decomp (cfg : Config) :
    ∀ (bs : List (List VRow)) (st : St),
    ∃ d, (processBatches cfg bs st).1.events = st.events ++ d ∧
      Decomp d (processBatches cfg bs st).2 := by
  intro bs
  induction bs with
  | nil =>
    intro st
    exact ⟨[], by simp [processBatches], cleanEvents_nil⟩
  | cons b bs ih =>
    intro st
    obtain ⟨d1, h1, hd1⟩ := getExtraKeyInfo_decomp cfg b st
    cases hG : getExtraKeyInfo cfg b st with
    | mk st1 r1 =>
      rw [hG] at h1 hd1
      dsimp only at h1 hd1
      cases r1 with
      | some e =>
        simp only [processBatches, hG]
        exact ⟨d1, h1, hd1⟩
      | none =>
        obtain ⟨d2, h2, hd2⟩ := ih st1
        simp only [processBatches, hG]
        refine ⟨d1 ++ d2, ?_, ?_⟩
        · rw [h2, h1, List.append_assoc]
        · exact decomp_append_clean d1 d2 _ hd1 hd2

/-- The post-filter page handler appends a trace that decomposes along its
outcome (the third component is the error it hands the scanner). -/
theorem pageRest_decomp (cfg : Config) (rows0 : List VRow) (st : St) :
    ∃ d, (pageRest cfg rows0 st).1.events = st.events ++ d ∧
      Decomp d (pageRest cfg rows0 st).2.2 := by
  obtain ⟨ev, rc, vc, fc, bc, lim⟩ := st
  simp only [pageRest]
  cases lim with
  | none =>
    dsimp only
    by_cases hne : rows0.isEmpty
    · rw [if_pos hne]
      exact ⟨[], by simp, cleanEvents_nil⟩
    · rw [if_neg hne]
      obtain ⟨d1, h1, hd1⟩ := processBatches_decomp cfg
        (chunksOf (cfg.batchSize - 1) rows0) ⟨ev, rc, vc, fc, bc, none⟩
      cases hP : processBatches cfg (chunksOf (cfg.batchSize - 1) rows0)
          ⟨ev, rc, vc, fc, bc, none⟩ with
      | mk st2 r2 =>
        rw [hP] at h1 hd1
        dsimp only at h1 hd1
        cases r2 with
        | some e => exact ⟨d1, h1, hd1⟩
        | none => exact ⟨d1, h1, hd1⟩
  | some l =>
    dsimp only
    by_cases hneg : l - (rows0.length : Int) < 0
    · rw [if_pos hneg]
      dsimp only
      by_cases hne : (jsSlice0 rows0 ((rows0.length : Int) + (l - (rows0.length : Int)))).isEmpty
      · rw [if_pos hne]
        exact ⟨[], by simp, cleanEvents_nil⟩
      · rw [if_neg hne]
        obtain ⟨d1, h1, hd1⟩ := processBatches_decomp cfg
          (chunksOf (cfg.batchSize - 1)
            (jsSlice0 rows0 ((rows0.length : Int) + (l - (rows0.length : Int)))))
          ⟨ev, rc, vc, fc, bc, some 0⟩
        cases hP : processBatches cfg
            (chunksOf (cfg.batchSize - 1)
              (jsSlice0 rows0 ((rows0.length : Int) + (l - (rows0.length : Int)))))
            ⟨ev, rc, vc, fc, bc, some 0⟩ with
        | mk st2 r2 =>
          rw [hP] at h1 hd1
          dsimp only at h1 hd1
          cases r2 with
          | some e => exact ⟨d1, h1, hd1⟩
          | none => exact ⟨d1, h1, hd1⟩
    · rw [if_neg hneg]
      dsimp only
      by_cases hne : rows0.isEmpty
      · rw [if_pos hne]
        exact ⟨[], by simp, cleanEvents_nil⟩
      · rw [if_neg hne]
        obtain ⟨d1, h1, hd1⟩ := processBatches_decomp cfg
          (chunksOf (cfg.batchSize - 1) rows0)
          ⟨ev, rc, vc, fc, bc, some (l - (rows0.length : Int))⟩
        cases hP : processBatches cfg (chunksOf (cfg.batchSize - 1) rows0)
            ⟨ev, rc, vc, fc, bc, some (l - (rows0.length : Int))⟩ with
        | mk st2 r2 =>
          rw [hP] at h1 hd1
          dsimp only at h1 hd1
          cases r2 with
          | some e => exact ⟨d1, h1, hd1⟩
          | none => exact ⟨d1, h1, hd1⟩

/-- The full page handler (filter step plus `pageRest`) appends a trace that
decomposes along its outcome; the filter's failure reports are clean. -/
theorem handlePage_decomp (cfg : Config) (pageRows : List VRow) (st : St) :
    ∃ d, (handlePage cfg pageRows st).1.events = st.events ++ d ∧
      Decomp d (handlePage cfg pageRows st).2.2 := by
  cases hsf : cfg.sourceFilter with
  | none =>
    simp only [handlePage, hsf]
    exact pageRest_decomp cfg pageRows st
  | some f =>
    obtain ⟨ev, rc, vc, fc, bc, lim⟩ := st
    simp only [handlePage, hsf, filterStep_spec f pageRows ev]
    obtain ⟨d1, h1, hd1⟩ := pageRest_decomp cfg (pageRows.filter (keepRow f))
      ⟨ev ++ (pageRows.filter (filterThrew f)).map Event.fail, rc, vc, fc, bc, lim⟩
    dsimp only at h1
    refine ⟨(pageRows.filter (filterThrew f)).map Event.fail ++ d1, ?_, ?_⟩
    · rw [h1, List.append_assoc]
    · refine decomp_append_clean _ d1 _ ?_ hd1
      intro e he
      obtain ⟨r, _, hr⟩ := List.mem_map.1 he
      rw [← hr]
      rfl

/-- A finished scanner run (driven by the real page handler) has a trace
that decomposes along the value passed to `complete`: a store query error
aborts at once, a page handler error stops the scan, and a clean run hands
`complete` no error. -/
theorem getViewInBatches_decomp (cfg : Config) :
    ∀ (fuel : Nat) (qp : QP) (st st' : St) (r : Option Err),
    getViewInBatches cfg (handlePage cfg) fuel qp st = some (st', r) →
    ∃ d, st'.events = st.events ++ d ∧ Decomp d r := by
  intro fuel
  induction fuel with
  | zero =>
    intro qp st st' r h
    cases h
  | succ fl ih =>
    intro qp st st' r h
    obtain ⟨ev, rc, vc, fc, bc, lim⟩ := st
    simp only [getViewInBatches] at h
    cases hv : cfg.viewResp vc qp (cfg.pageSize + 1) with
    | er e =>
      rw [hv] at h
      dsimp only at h
      injection h with h2
      injection h2 with hst hr
      subst hst
      subst hr
      refine ⟨[.viewQ qp (cfg.pageSize + 1) (.er e)], rfl, decomp_single_er _ e rfl⟩
    | ok body =>
      rw [hv] at h
      dsimp only at h
      obtain ⟨d1, h1, hd1⟩ := handlePage_decomp cfg (body.take cfg.pageSize)
        ⟨ev ++ [.viewQ qp (cfg.pageSize + 1) (.ok body)], rc, vc + 1, fc, bc, lim⟩
      cases hH : handlePage cfg (body.take cfg.pageSize)
          ⟨ev ++ [.viewQ qp (cfg.pageSize + 1) (.ok body)], rc, vc + 1, fc, bc, lim⟩ with
      | mk st1 p =>
        rw [hH] at h h1 hd1
        dsimp only at h1 hd1
        obtain ⟨cont, err⟩ := p
        cases err with
        | some e =>
          dsimp only at h
          injection h with h2
          injection h2 with hst hr
          subst hst
          subst hr
          refine ⟨.viewQ qp (cfg.pageSize + 1) (.ok body) :: d1, ?_, ?_⟩
          · rw [h1, List.append_assoc]
            rfl
          · exact decomp_append_clean [_] d1 _ (cleanEvents_cons _ [] rfl cleanEvents_nil) hd1
        | none =>
          cases cont with
          | false =>
            dsimp only at h
            rw [if_neg Bool.false_ne_true] at h
            injection h with h2
            injection h2 with hst hr
            subst hst
            subst hr
            refine ⟨.viewQ qp (cfg.pageSize + 1) (.ok body) :: d1, ?_, ?_⟩
            · rw [h1, List.append_assoc]
              rfl
            · exact decomp_append_clean [_] d1 _ (cleanEvents_cons _ [] rfl cleanEvents_nil) hd1
          | true =>
            dsimp only at h
            rw [if_pos rfl] at h
            cases hnx : body[cfg.pageSize]? with
            | some next =>
              rw [hnx] at h
              dsimp only at h
              obtain ⟨d2, h2, hd2⟩ := ih _ st1 st' r h
              refine ⟨(.viewQ qp (cfg.pageSize + 1) (.ok body) :: d1) ++ d2, ?_, ?_⟩
              · rw [h2, h1, List.append_assoc, List.append_assoc]
                rfl
              · exact decomp_append_clean _ d2 r
                  (cleanEvents_cons _ d1 rfl hd1) hd2
            | none =>
              rw [hnx] at h
              dsimp only at h
              injection h with h2
              injection h2 with hst hr
              subst hst
              subst hr
              refine ⟨.viewQ qp (cfg.pageSize + 1) (.ok body) :: d1, ?_, ?_⟩
              · rw [h1, List.append_assoc]
                rfl
              · exact decomp_append_clean [_] d1 _ (cleanEvents_cons _ [] rfl cleanEvents_nil) hd1

/-- C6: when a migration run finishes by invoking `complete` with an error
`e` — a store view-query error, a store multi-get error, a store bulk-write
transport error, or an error thrown or returned by the `fetchKeys` or
`changes` callbacks, the only error-carrying interactions — the whole
recorded trace is a clean prefix followed by exactly the failing call, whose
recorded error is `e`: the first failing interaction is the migration's last
action, so no further pages, sub-batches, or callback invocations are
processed after it. -/
theorem fatal_error_aborts (cfg : Config) (fuel : Nat) (st' : St) (e : Err)
    (h : runMigration cfg fuel = some (st', some e)) :
    ∃ d1 elast, st'.events = d1 ++ [elast] ∧ cleanEvents d1 ∧ eventErr elast = some e := by
  obtain ⟨d, hev, hd⟩ := getViewInBatches_decomp cfg fuel qp0 (st0 cfg) st' (some e) h
  obtain ⟨d1, elast, heq, hcl, herr⟩ := hd
  refine ⟨d1, elast, ?_, hcl, herr⟩
  rw [hev, heq]
  simp [st0]

/-- Witness for C6: a correct store over a three-row view whose first bulk
write fails with transport error 7 — the run completes with error 7 and its
trace ends at the failing bulk call. -/
theorem fatal_error_aborts_witness :
    ∃ st', runMigration cfgC6w 3 = some (st', some 7) ∧
      ∃ d1 elast, st'.events = d1 ++ [elast] ∧ cleanEvents d1 ∧ eventErr elast = some 7 :=
  ⟨_, rfl, fatal_error_aborts cfgC6w 3 _ 7 rfl⟩

/-- C10: configuring `retryConflicts` with the numeric value 0 yields a
retry ceiling of 2 (same as the default and as the unset case), and the
literal `false` is the only option value whose ceiling is 0 — so a caller
cannot disable conflict retries by passing the number 0. -/
theorem retryConflicts_zero_is_two :
    retriesCeil (.num 0) = 2 ∧ retriesCeil .undef = 2 ∧
    ∀ o, retriesCeil o = 0 ↔ o = .bool false := by
  refine ⟨rfl, rfl, fun o => ?_⟩
  cases o with
  | num n =>
    simp only [retriesCeil]
    constructor
    · intro h
      split at h <;> omega
    · intro h
      exact absurd h (by simp)
  | bool b => cases b <;> decide
  | undef => decide

/-- C2 (code bug): the spec's result-alignment invariant fails when a row's
`changes` callback returns a bare single change (a shape the configuration
surface allows).  In `runC2` the two rows submit the changes `[10, 20]`
(per-row counts 1 and 1), but `_.map(changes, 'length')` yields
`[undefined, 1]` for a bare object, `unflatten`'s offset becomes `NaN`, and
every regrouped WriteResult group from that row on is `[]` — lengths
`[0, 0] ≠ [1, 1]`.  Consequence, evaluated below: row B's conflict is
invisible, both rows are ticked as successes, and no retry bulk write ever
happens. -/
theorem singleChange_breaks_result_alignment :
    ([normChg (.oneC 10), normChg (.manyC [20])].map flat1).flatten = [10, 20] ∧
    [jsLen (normChg (.oneC 10)), jsLen (normChg (.manyC [20]))] = [none, some 1] ∧
    unflatten [WriteRes.ok, WriteRes.conflict]
      [jsLen (normChg (.oneC 10)), jsLen (normChg (.manyC [20]))] (some 0) = [[], []] ∧
    ([[], []] : List (List WriteRes)).map List.length ≠ [1, 1] ∧
    runC2.2 = none ∧
    ticksOf runC2.1.events = [2] ∧
    countBulk runC2.1.events = 1 ∧
    failsOf runC2.1.events = [] :=
  ⟨rfl, rfl, rfl, by decide, rfl, rfl, rfl, rfl⟩

/-- C1 counterexample: in `runC1` the single row's write conflicts once and
is retried; contrary to the claim, the multi-get is performed again on the
retry attempt (2 fetch events for 2 attempts, not 1), and the retry's
`changes` callback receives the documents of the second fetch
(`[some 101]`), not the ones of the original fetch (`[some 100]`). -/
theorem retry_repeats_fetch_counterexample :
    runC1.2 = none ∧
    countBulk runC1.1.events = 2 ∧
    countFetch runC1.1.events = 2 ∧
    changesArgs runC1.1.events = [some [some 100], some [some 101]] ∧
    (2 : Nat) ≠ 1 ∧ some [some (100 : Nat)] ≠ some [some (101 : Nat)] :=
  ⟨rfl, rfl, rfl, rfl, by decide, by decide⟩

/-- C9 counterexample: with `fetchKeys` unconfigured no multi-get happens,
but the `changes` callback's second argument is `extraDocs[i]` of the empty
array — JavaScript `undefined` (`none`), not an empty document collection
(`some []`) as the claim states. -/
theorem unconfigured_fetchKeys_passes_undefined :
    runC9.2 = none ∧
    countFetch runC9.1.events = 0 ∧
    changesArgs runC9.1.events = [none] ∧
    (none : Option (List (Option Doc))) ≠ some [] :=
  ⟨rfl, rfl, rfl, by decide⟩

/-- C4 counterexample: with a configured budget `limit = 0` (an L smaller
than the N = 3 filtered view rows), the budget goes negative on page 1 and
the page is truncated to zero rows — but scanning does *not* stop after that
page: the truncated page takes the empty-page `nextBatch()` shortcut before
the `limit === 0` check is ever consulted, so the code issues a second view
request (and scans the whole view), where the claim requires exactly one. -/
theorem limit_zero_keeps_scanning :
    runOutcome (runMigration cfgC4ce 5) = some none ∧
    countViewQ (runEvents (runMigration cfgC4ce 5)) = 2 ∧
    countFKC (runEvents (runMigration cfgC4ce 5)) = 0 ∧
    (2 : Nat) ≠ 1 :=
  ⟨rfl, rfl, rfl, by decide⟩

/-- C5 counterexample: for an empty view (N = 0) the scanner still issues
one page request before discovering there is no data, but the claim's
`⌈N/P⌉` is 0. -/
theorem empty_view_issues_one_request :
    runOutcome (getViewInBatches cfgC5ce pageLogger 1 qp0 (st0 cfgC5ce)) = some none ∧
    countViewQ (runEvents (getViewInBatches cfgC5ce pageLogger 1 qp0 (st0 cfgC5ce))) = 1 ∧
    (0 + 2 - 1) / 2 = 0 ∧
    (1 : Nat) ≠ 0 :=
  ⟨rfl, rfl, by decide, by decide⟩

end CouchMigrate
